import Mathlib

/-!
Verification of the log parsing / aggregation / reporting pipeline.

The definitions below are a shallow embedding of the Python sources:
`src/processors.py` (LogParser, LogProcessor), `src/reports.py`
(DjangoReportData, HandlersReport), `src/run.py` (error reporting).
Strings are modelled as `List Char` in the parser (one Python `str`
character per `Char`) and as `String` for dictionary keys and report
text.  Counters are `Nat` (they are only ever incremented).  The regex
character classes are modelled over their ASCII part, which is the part
exercised by the log format.
-/

namespace LogsReport

/-- Python regex class `\s` (ASCII part): space, tab, newline, carriage
return, vertical tab, form feed. -/
def isSpaceChar (c : Char) : Bool :=
  c = ' ' || c = '\t' || c = '\n' || c = '\r' || c = '\x0b' || c = '\x0c'

/-- Python regex class `\w` (ASCII part): letters, digits, underscore. -/
def isWordChar (c : Char) : Bool :=
  c.isAlphanum || c = '_'

/-- Consume exactly `n` characters, each matching `\d`; return them and
the rest (regex `\d{n}`). -/
def takeDigits : Nat → List Char → Option (List Char × List Char)
  | 0, s => some ([], s)
  | _ + 1, [] => none
  | n + 1, c :: t =>
    if c.isDigit then (takeDigits n t).map (fun p => (c :: p.1, p.2)) else none

/-- Consume one literal character. -/
def expectChar (c : Char) : List Char → Option (List Char)
  | [] => none
  | x :: t => if x = c then some t else none

/-- Consume a literal token character by character. -/
def expectTok : List Char → List Char → Option (List Char)
  | [], s => some s
  | _ :: _, [] => none
  | c :: ct, x :: xs => if x = c then expectTok ct xs else none

/-- Greedy `\s+`: the maximal nonempty whitespace run and the rest. -/
def takeWs1 (s : List Char) : Option (List Char × List Char) :=
  let ws := s.takeWhile isSpaceChar
  if ws.isEmpty then none else some (ws, s.dropWhile isSpaceChar)

/-- The `timestamp` group of `LogParser.BASE_PATTERN`:
`\d{4}-\d{2}-\d{2}\s+\d{2}:\d{2}:\d{2},\d{3}`. -/
def parseTimestamp (s : List Char) : Option (List Char × List Char) :=
  match takeDigits 4 s with
  | none => none
  | some (y, r) =>
  match expectChar '-' r with
  | none => none
  | some r =>
  match takeDigits 2 r with
  | none => none
  | some (mo, r) =>
  match expectChar '-' r with
  | none => none
  | some r =>
  match takeDigits 2 r with
  | none => none
  | some (d, r) =>
  match takeWs1 r with
  | none => none
  | some (w, r) =>
  match takeDigits 2 r with
  | none => none
  | some (hh, r) =>
  match expectChar ':' r with
  | none => none
  | some r =>
  match takeDigits 2 r with
  | none => none
  | some (mi, r) =>
  match expectChar ':' r with
  | none => none
  | some r =>
  match takeDigits 2 r with
  | none => none
  | some (ss, r) =>
  match expectChar ',' r with
  | none => none
  | some r =>
  match takeDigits 3 r with
  | none => none
  | some (ms, r) =>
    some (y ++ '-' :: mo ++ '-' :: d ++ w ++ hh ++ ':' :: mi ++ ':' :: ss ++ ',' :: ms, r)

/-- The five severity tokens, in the alternation order of the pattern
`DEBUG|INFO|WARNING|ERROR|CRITICAL`. -/
def levelTokens : List (List Char) :=
  ["DEBUG".toList, "INFO".toList, "WARNING".toList, "ERROR".toList, "CRITICAL".toList]

/-- The `level` group: the severity alternation, tried in pattern order
(the five tokens start with five distinct letters, so at most one can
match at a given position). -/
def parseLevel (s : List Char) : Option (List Char × List Char) :=
  match expectTok "DEBUG".toList s with
  | some r => some ("DEBUG".toList, r)
  | none =>
  match expectTok "INFO".toList s with
  | some r => some ("INFO".toList, r)
  | none =>
  match expectTok "WARNING".toList s with
  | some r => some ("WARNING".toList, r)
  | none =>
  match expectTok "ERROR".toList s with
  | some r => some ("ERROR".toList, r)
  | none =>
  match expectTok "CRITICAL".toList s with
  | some r => some ("CRITICAL".toList, r)
  | none => none

/-- Continuation of the `component` group after an initial word
character: consume the rest of the current `\w+` run, then maximal
`(?:\.\w+)*` segments.  A greedy backtracking match of `(?:\.\w+)*`
followed by `:` succeeds exactly on the maximal run (every shorter stop
point is followed by `.` or a word character, never `:`). -/
def wordThenDotted : List Char → List Char × List Char
  | [] => ([], [])
  | c :: t =>
    if isWordChar c then
      let p := wordThenDotted t
      (c :: p.1, p.2)
    else if c = '.' then
      match t with
      | [] => ([], ['.'])
      | d :: t2 =>
        if isWordChar d then
          let p := wordThenDotted t2
          ('.' :: d :: p.1, p.2)
        else ([], c :: t)
    else ([], c :: t)

/-- The `(?:\.\w+)*` part of the `component` group, starting right after
a completed `\w+` run: a maximal run of `.word` segments. -/
def dottedTail (s : List Char) : List Char × List Char :=
  match s with
  | '.' :: c :: t =>
    if isWordChar c then
      let p := wordThenDotted t
      ('.' :: c :: p.1, p.2)
    else ([], s)
  | _ => ([], s)

/-- The `component` group: `django\.\w+(?:\.\w+)*`. -/
def parseComponent (s : List Char) : Option (List Char × List Char) :=
  match expectTok "django.".toList s with
  | none => none
  | some r =>
    if (r.takeWhile isWordChar).isEmpty then none
    else
      some ("django.".toList ++ r.takeWhile isWordChar ++
          (dottedTail (r.dropWhile isWordChar)).1,
        (dottedTail (r.dropWhile isWordChar)).2)

/-- Last character of `l` that is not a newline (used for the
backtracking case of `\s+(?P<message>.+)` when everything after the
colon is whitespace: `\s+` gives characters back one at a time, and the
first position at which `.+` can start is the last non-newline one). -/
def lastNonNl (l : List Char) : Option Char :=
  match l.reverse.dropWhile (fun c => c = '\n') with
  | [] => none
  | c :: _ => some c

/-- The `\s+(?P<message>.+)` tail of `BASE_PATTERN`, applied to the text
after the colon.  Greedy `\s+` takes the maximal whitespace run; if a
non-whitespace character follows, `.+` captures from there to the next
newline (or end).  If the whole tail is whitespace, `\s+` backtracks and
`.+` captures the single last whitespace character that is not a newline
(there is none to capture if only the first whitespace character
remains). -/
def parseMessageTail (s : List Char) : Option (List Char) :=
  let ws := s.takeWhile isSpaceChar
  let rem := s.dropWhile isSpaceChar
  if ws.isEmpty then none
  else
    match rem with
    | [] => (lastNonNl ws.tail).map (fun c => [c])
    | _ :: _ => some (rem.takeWhile (fun c => !(c = '\n')))

/-- `DjangoLogComponent.REQUEST.value`. -/
def requestComponent : List Char := "django.request".toList

/-- `/[^\s]+` at the current position: a slash followed by a nonempty
maximal run of non-whitespace characters. -/
def takePath (s : List Char) : Option (List Char) :=
  match s with
  | '/' :: t =>
    let run := t.takeWhile (fun c => !isSpaceChar c)
    if run.isEmpty then none else some ('/' :: run)
  | _ => none

/-- `\s+` then `/[^\s]+` (shared tail of both `REQUEST_PATTERN`
alternatives). -/
def afterWsPath (s : List Char) : Option (List Char) := do
  let (_, r) ← takeWs1 s
  takePath r

/-- One verb alternative of `REQUEST_PATTERN`:
`VERB\s+(?P<handler>/[^\s]+)`. -/
def verbBranch (v : List Char) (s : List Char) : Option (List Char) :=
  (expectTok v s).bind afterWsPath

/-- The `(?:GET|POST|PUT|DELETE|PATCH)\s+(?P<handler>/[^\s]+)`
alternative, verbs tried in pattern order. -/
def tryVerb (s : List Char) : Option (List Char) :=
  match verbBranch "GET".toList s with
  | some h => some h
  | none =>
  match verbBranch "POST".toList s with
  | some h => some h
  | none =>
  match verbBranch "PUT".toList s with
  | some h => some h
  | none =>
  match verbBranch "DELETE".toList s with
  | some h => some h
  | none =>
  match verbBranch "PATCH".toList s with
  | some h => some h
  | none => none

/-- The `Error:\s+(?P<error_handler>/[^\s]+)` alternative. -/
def tryError (s : List Char) : Option (List Char) :=
  (expectTok "Error:".toList s).bind afterWsPath

/-- `REQUEST_PATTERN.search`: scan left to right, at each position try
the verb alternative then the error alternative; the Python call site
takes whichever named group matched, so the result is the captured path
itself. -/
def searchRequest : List Char → Option (List Char)
  | [] => none
  | c :: t =>
    match tryVerb (c :: t) with
    | some h => some h
    | none =>
      match tryError (c :: t) with
      | some h => some h
      | none => searchRequest t

/-- The dictionary returned by `LogParser.parse_log_line`: the four
captured groups plus the optional `handler` key. -/
structure LogData where
  timestamp : List Char
  level : List Char
  component : List Char
  message : List Char
  handler : Option (List Char)
deriving Repr, DecidableEq

/-- `LogParser.parse_log_line`: anchored match of `BASE_PATTERN`
(`re.match`), then handler extraction on the message for
`django.request` records only; any failure yields `none`. -/
def parse_log_line (line : List Char) : Option LogData :=
  match parseTimestamp line with
  | none => none
  | some (ts, r) =>
  match takeWs1 r with
  | none => none
  | some (_, r) =>
  match parseLevel r with
  | none => none
  | some (lvl, r) =>
  match takeWs1 r with
  | none => none
  | some (_, r) =>
  match parseComponent r with
  | none => none
  | some (comp, r) =>
  match expectChar ':' r with
  | none => none
  | some r =>
  match parseMessageTail r with
  | none => none
  | some msg =>
    some ⟨ts, lvl, comp, msg,
      if comp = requestComponent then searchRequest msg else none⟩

example :
    parse_log_line "2024-03-28 10:15:30,123 INFO django.request: GET /api/users/".toList =
      some ⟨"2024-03-28 10:15:30,123".toList, "INFO".toList, "django.request".toList,
        "GET /api/users/".toList, some "/api/users/".toList⟩ := by decide

example : parse_log_line "Not a log line at all".toList = none := by decide

example : parse_log_line "".toList = none := by decide

example :
    parse_log_line "2024-03-28 10:15:30,123 INVALID django.request: GET /api/users/".toList =
      none := by decide

example :
    parse_log_line " 2024-03-28 10:15:30,123 INFO django.request: GET /x".toList = none := by
  decide

/-!  Aggregation (`LogProcessor`).  A Python `defaultdict` keyed by
strings is modelled as an association list in insertion order; updating
hits the first (unique) occurrence of a key, a missing key is appended. -/

/-- Inner `defaultdict(int)`: severity-key to count. -/
abbrev Levels := List (String × Nat)

/-- Outer `defaultdict(lambda: defaultdict(int))`: handler to counters. -/
abbrev Agg := List (String × Levels)

/-- `levels.get(key, 0)`. -/
def getCount (l : Levels) (k : String) : Nat :=
  match l.find? (fun e => e.1 = k) with
  | some e => e.2
  | none => 0

/-- `levels[key] += n` on a `defaultdict(int)`. -/
def bumpLevels (l : Levels) (k : String) (n : Nat) : Levels :=
  match l with
  | [] => [(k, n)]
  | e :: t => if e.1 = k then (e.1, e.2 + n) :: t else e :: bumpLevels t k n

/-- `agg[handler][level] += n` on the nested `defaultdict`. -/
def addCount (a : Agg) (h lvl : String) (n : Nat) : Agg :=
  match a with
  | [] => [(h, [(lvl, n)])]
  | e :: t => if e.1 = h then (e.1, bumpLevels e.2 lvl n) :: t else e :: addCount t h lvl n

/-- The accumulation loop of `_merge_results`: fold one partial result
into the accumulator (`merged_data[handler][level] += count`). -/
def mergeOne (acc : Agg) (p : Agg) : Agg :=
  p.foldl (fun acc e => e.2.foldl (fun acc le => addCount acc e.1 le.1 le.2) acc) acc

/-- Accumulate all partial results into the (initially empty)
`merged_data`. -/
def mergeAll (ps : List Agg) : Agg :=
  ps.foldl mergeOne []

/-- `f"{log_data['level'].lower()}_count"`. -/
def levelKey (lvl : List Char) : String :=
  String.mk (lvl.map Char.toLower) ++ "_count"

/-- `DjangoReportData` (`src/reports.py`). -/
structure DjangoReportData where
  handler_name : String
  debug_count : Nat
  info_count : Nat
  warning_count : Nat
  error_count : Nat
  critical_count : Nat
deriving Repr, DecidableEq

/-- One row of `_merge_results`' comprehension: a `DjangoReportData`
built with `levels.get(field, 0)` for the five counters. -/
def toRow (h : String) (l : Levels) : DjangoReportData :=
  ⟨h, getCount l "debug_count", getCount l "info_count", getCount l "warning_count",
    getCount l "error_count", getCount l "critical_count"⟩

/-- `sorted(merged_data.items())`: a stable sort of the items by key
(keys are unique, so the tuple comparison never reaches the values). -/
def sortPairs (a : Agg) : Agg :=
  List.insertionSort (fun x y => x.1 ≤ y.1) a

/-- `LogProcessor._merge_results`. -/
def merge_results (ps : List Agg) : List DjangoReportData :=
  (sortPairs (mergeAll ps)).map (fun e => toRow e.1 e.2)

/-- The per-line body of `_process_single_file`'s loop: skip unparsed
lines; count only `django.request` records that carry a handler. -/
def processLine (a : Agg) (line : List Char) : Agg :=
  match parse_log_line line with
  | none => a
  | some d =>
    if d.component = requestComponent then
      match d.handler with
      | some h => addCount a (String.mk h) (levelKey d.level) 1
      | none => a
    else a

/-- `LogProcessor._process_single_file`, with the file contents given
as its list of lines (the `_read_logs` I/O is external). -/
def process_single_file (lines : List (List Char)) : Agg :=
  lines.foldl processLine []

/-!  Report rendering (`HandlersReport`). -/

def data_column_width : Nat := 7

def identifier_column_width : Nat := 20

def no_data_message : String := "No data available for report."

/-- Python `f"{s:<{w}}"`: left-justify by padding with spaces, never
truncating. -/
def ljust (s : String) (w : Nat) : String :=
  s ++ String.mk (List.replicate (w - s.length) ' ')

/-- `HandlersReport._get_header`. -/
def get_header : String :=
  String.intercalate "\t"
    [ljust "HANDLER" identifier_column_width,
     ljust "DEBUG" data_column_width, ljust "INFO" data_column_width,
     ljust "WARNING" data_column_width, ljust "ERROR" data_column_width,
     ljust "CRITICAL" data_column_width]

/-- `HandlersReport._format_statistics` (also `_format_handler_line`
and `_format_totals_line`, which pass the handler name and `""`). -/
def format_statistics (title : String) (s : DjangoReportData) : String :=
  String.intercalate "\t"
    [ljust title identifier_column_width,
     ljust (toString s.debug_count) data_column_width,
     ljust (toString s.info_count) data_column_width,
     ljust (toString s.warning_count) data_column_width,
     ljust (toString s.error_count) data_column_width,
     ljust (toString s.critical_count) data_column_width]

/-- `DjangoReportData.create_totals`: field-wise sums over the list,
with an empty handler name. -/
def create_totals (stats : List DjangoReportData) : DjangoReportData :=
  ⟨"", (stats.map (·.debug_count)).sum, (stats.map (·.info_count)).sum,
    (stats.map (·.warning_count)).sum, (stats.map (·.error_count)).sum,
    (stats.map (·.critical_count)).sum⟩

/-- `HandlersReport._calculate_total`: sum of all five counters over
all rows. -/
def calculate_total (stats : List DjangoReportData) : Nat :=
  (stats.map (fun s =>
    s.debug_count + s.info_count + s.warning_count + s.error_count + s.critical_count)).sum

/-- `sorted(log_statistics, key=lambda x: x.handler_name)`: stable sort
by handler name. -/
def sortStats (stats : List DjangoReportData) : List DjangoReportData :=
  List.insertionSort (fun a b => a.handler_name ≤ b.handler_name) stats

/-- `HandlersReport.generate`. -/
def generate (stats : List DjangoReportData) : String :=
  if stats.isEmpty then no_data_message
  else
    String.intercalate "\n"
      (("Total requests: " ++ toString (calculate_total stats) ++ "\n")
        :: get_header
        :: ((sortStats stats).map (fun h => format_statistics h.handler_name h)
            ++ [format_statistics "" (create_totals stats)]))

/-!  `LogProcessor.process_files`.  The worker pool (`mp.Pool.map`) runs
`_process_single_file` on each source and collects the results by input
position, whatever order the workers finish in; the completion order is
modelled as an arbitrary permutation `sched` of the source indices.  The
sequential branch is the list comprehension in input order. -/

/-- Worker-pool map: execute in schedule order, collect by input index
(`pool.map` keys results by position). -/
def poolMapCollect (sched : List Nat) (files : List (List (List Char))) : List Agg :=
  (List.insertionSort (fun a b => a.1 ≤ b.1)
    (sched.map (fun i => (i, process_single_file (files.getD i []))))).map (·.2)

/-- `LogProcessor.process_files` on in-memory sources (success path):
worker-pool mode when `useMp`, else the sequential comprehension. -/
def process_files (useMp : Bool) (sched : List Nat)
    (files : List (List (List Char))) : List DjangoReportData :=
  if useMp then merge_results (poolMapCollect sched files)
  else merge_results (files.map process_single_file)

/-!  Failure path of `process_files` (sequential branch): a source is
either its list of lines or a `LogFileError` carrying the path and the
underlying cause, as raised by `_read_logs`.  The comprehension stops at
the first raised error, `process_files` re-raises `LogFileError`
unchanged, and `MultipleFilesError` is never raised anywhere. -/

/-- The sequential comprehension
`[self._process_single_file(path) for path in file_paths]`: sources are
processed left to right and the first raised `LogFileError` aborts the
whole batch. -/
def collectResults :
    List (Except (String × String) (List (List Char))) →
      Except (String × String) (List Agg)
  | [] => Except.ok []
  | s :: t =>
    match s with
    | Except.error e => Except.error e
    | Except.ok lines =>
      match collectResults t with
      | Except.error e => Except.error e
      | Except.ok rest => Except.ok (process_single_file lines :: rest)

/-- `process_files` over fallible sources: the first `LogFileError`
(path, cause) aborts the batch and is re-raised as is (`except
LogFileError: raise`); `MultipleFilesError` is never constructed. -/
def process_files_seq (srcs : List (Except (String × String) (List (List Char)))) :
    Except (String × String) (List DjangoReportData) :=
  (collectResults srcs).map merge_results

/-- The first `LogFileError` raised while scanning the sources in input
order. -/
def firstError (srcs : List (Except (String × String) (List (List Char)))) :
    Option (String × String) :=
  srcs.findSome? (fun s =>
    match s with
    | Except.error e => some e
    | Except.ok _ => none)

example :
    process_single_file
      ["2024-03-28 10:15:30,123 INFO django.request: GET /api/users/".toList,
       "2024-03-28 10:15:31,456 ERROR django.request: Error: /api/users/".toList] =
      [("/api/users/", [("info_count", 1), ("error_count", 1)])] := by decide

example :
    merge_results [[("/a", [("info_count", 2)])], [("/a", [("error_count", 1)])]] =
      [⟨"/a", 0, 2, 0, 1, 0⟩] := by decide

example : generate [] = "No data available for report." := by decide

/-!  Cell values and key sets of aggregates.  `cellLevels`/`cellA` sum
every matching entry, so they are meaningful on arbitrary association
lists; on well-formed ones (unique keys) they agree with dictionary
lookup. -/

/-- Total count stored for severity key `lvl` (summing duplicates). -/
def cellLevels (l : Levels) (lvl : String) : Nat :=
  (l.map (fun le => if le.1 = lvl then le.2 else 0)).sum

/-- Total count stored in cell (`h`, `lvl`) (summing duplicates). -/
def cellA (a : Agg) (h lvl : String) : Nat :=
  (a.map (fun e => if e.1 = h then cellLevels e.2 lvl else 0)).sum

/-- The handler keys of an aggregate. -/
def keysA (a : Agg) : List String :=
  a.map (·.1)

/-- The handler keys whose counter dictionary is nonempty: exactly the
keys that survive a merge. -/
def liveKeys (a : Agg) : List String :=
  (a.filter (fun e => !e.2.isEmpty)).map (·.1)

/-- All counter dictionaries are nonempty (true of every aggregate the
code builds, since a key is only ever created by an increment). -/
def NonemptyLevels (a : Agg) : Prop :=
  ∀ e ∈ a, e.2 ≠ []

/-- Unique severity keys. -/
def WFLevels (l : Levels) : Prop :=
  (l.map (·.1)).Nodup

/-- Unique handler keys, each with unique severity keys. -/
def WFAgg (a : Agg) : Prop :=
  (a.map (·.1)).Nodup ∧ ∀ e ∈ a, WFLevels e.2

theorem cellLevels_nil (lvl : String) : cellLevels [] lvl = 0 := rfl

theorem cellLevels_cons (e : String × Nat) (t : Levels) (lvl : String) :
    cellLevels (e :: t) lvl = (if e.1 = lvl then e.2 else 0) + cellLevels t lvl := by
  simp [cellLevels]

theorem cellA_nil (h lvl : String) : cellA [] h lvl = 0 := rfl

theorem cellA_cons (e : String × Levels) (t : Agg) (h lvl : String) :
    cellA (e :: t) h lvl = (if e.1 = h then cellLevels e.2 lvl else 0) + cellA t h lvl := by
  simp [cellA]

theorem cellLevels_bumpLevels (l : Levels) (k : String) (n : Nat) (lvl : String) :
    cellLevels (bumpLevels l k n) lvl = cellLevels l lvl + (if k = lvl then n else 0) := by
  induction l with
  | nil =>
    by_cases hk : k = lvl <;> simp [bumpLevels, cellLevels, hk]
  | cons e t ih =>
    by_cases he : e.1 = k
    · by_cases hk : k = lvl <;>
        simp [bumpLevels, he, cellLevels_cons, he.trans, hk] <;> omega
    · simp only [bumpLevels, if_neg he, cellLevels_cons, ih]
      omega

theorem cellA_addCount (a : Agg) (h lvl : String) (n : Nat) (h2 l2 : String) :
    cellA (addCount a h lvl n) h2 l2 =
      cellA a h2 l2 + (if h = h2 ∧ lvl = l2 then n else 0) := by
  induction a with
  | nil =>
    by_cases hh : h = h2 <;> by_cases hl : lvl = l2 <;>
      simp [addCount, cellA_cons, cellA_nil, cellLevels_cons, cellLevels_nil, hh, hl]
  | cons e t ih =>
    by_cases he : e.1 = h
    · simp only [addCount, if_pos he, cellA_cons, cellLevels_bumpLevels]
      by_cases hh : e.1 = h2
      · have hh2 : h = h2 := he.symm.trans hh
        by_cases hl : lvl = l2 <;> simp [hh, hh2, hl] <;> omega
      · have hh2 : ¬h = h2 := fun hcon => hh (he.trans hcon)
        simp [hh, hh2]
    · simp only [addCount, if_neg he, cellA_cons, ih]
      omega

theorem cellA_foldl_addCount (levels : Levels) (h : String) :
    ∀ (acc : Agg) (h2 l2 : String),
      cellA (levels.foldl (fun a le => addCount a h le.1 le.2) acc) h2 l2 =
        cellA acc h2 l2 + (if h = h2 then cellLevels levels l2 else 0) := by
  induction levels with
  | nil => intro acc h2 l2; simp [cellLevels_nil]
  | cons le t ih =>
    intro acc h2 l2
    simp only [List.foldl_cons, ih, cellA_addCount, cellLevels_cons]
    by_cases hh : h = h2 <;> by_cases hl : le.1 = l2 <;> simp [hh, hl] <;> omega

theorem cellA_mergeOne (p : Agg) :
    ∀ (acc : Agg) (h l : String),
      cellA (mergeOne acc p) h l = cellA acc h l + cellA p h l := by
  induction p with
  | nil => intro acc h l; simp [mergeOne, cellA_nil]
  | cons e t ih =>
    intro acc h l
    have : mergeOne acc (e :: t) =
        mergeOne (e.2.foldl (fun a le => addCount a e.1 le.1 le.2) acc) t := by
      simp [mergeOne]
    rw [this, ih, cellA_foldl_addCount, cellA_cons]
    omega

theorem cellA_foldl_mergeOne (ps : List Agg) :
    ∀ (acc : Agg) (h l : String),
      cellA (ps.foldl mergeOne acc) h l =
        cellA acc h l + (ps.map (fun p => cellA p h l)).sum := by
  induction ps with
  | nil => intro acc h l; simp
  | cons p t ih =>
    intro acc h l
    simp only [List.foldl_cons, ih, cellA_mergeOne, List.map_cons, List.sum_cons]
    omega

theorem cellA_mergeAll (ps : List Agg) (h l : String) :
    cellA (mergeAll ps) h l = (ps.map (fun p => cellA p h l)).sum := by
  have := cellA_foldl_mergeOne ps [] h l
  simpa [mergeAll, cellA_nil] using this

theorem cellA_eq_zero (a : Agg) (h l : String) (hmem : h ∉ keysA a) :
    cellA a h l = 0 := by
  induction a with
  | nil => rfl
  | cons e t ih =>
    simp only [keysA, List.map_cons, List.mem_cons, not_or] at hmem
    rw [cellA_cons, if_neg (fun hcon => hmem.1 hcon.symm),
      ih (by simpa [keysA] using hmem.2)]

theorem mem_keysA_addCount (a : Agg) (h lvl : String) (n : Nat) (k : String) :
    k ∈ keysA (addCount a h lvl n) ↔ k ∈ keysA a ∨ k = h := by
  induction a with
  | nil => simp [addCount, keysA]
  | cons e t ih =>
    by_cases he : e.1 = h
    · simp only [addCount, if_pos he, keysA, List.map_cons, List.mem_cons]
      rw [he]
      simp only [keysA] at *
      tauto
    · simp only [addCount, if_neg he, keysA, List.map_cons, List.mem_cons]
      simp only [keysA] at ih
      rw [ih]
      tauto

theorem mem_keysA_foldl_addCount (levels : Levels) (h : String) :
    ∀ (acc : Agg) (k : String),
      k ∈ keysA (levels.foldl (fun a le => addCount a h le.1 le.2) acc) ↔
        k ∈ keysA acc ∨ (levels ≠ [] ∧ k = h) := by
  induction levels with
  | nil => intro acc k; simp
  | cons le t ih =>
    intro acc k
    simp only [List.foldl_cons, ih, mem_keysA_addCount]
    constructor
    · rintro ((hk | hk) | hk)
      · exact Or.inl hk
      · exact Or.inr ⟨by simp, hk⟩
      · exact Or.inr ⟨by simp, hk.2⟩
    · rintro (hk | hk)
      · exact Or.inl (Or.inl hk)
      · exact Or.inl (Or.inr hk.2)

theorem mem_liveKeys_cons (e : String × Levels) (t : Agg) (k : String) :
    k ∈ liveKeys (e :: t) ↔ (e.2 ≠ [] ∧ k = e.1) ∨ k ∈ liveKeys t := by
  cases h2 : e.2 with
  | nil => simp [liveKeys, List.filter_cons, h2]
  | cons x xs => simp [liveKeys, List.filter_cons, h2]

theorem mem_keysA_mergeOne (p : Agg) :
    ∀ (acc : Agg) (k : String),
      k ∈ keysA (mergeOne acc p) ↔ k ∈ keysA acc ∨ k ∈ liveKeys p := by
  induction p with
  | nil => intro acc k; simp [mergeOne, liveKeys]
  | cons e t ih =>
    intro acc k
    have hstep : mergeOne acc (e :: t) =
        mergeOne (e.2.foldl (fun a le => addCount a e.1 le.1 le.2) acc) t := by
      simp [mergeOne]
    rw [hstep, ih, mem_keysA_foldl_addCount, mem_liveKeys_cons]
    tauto

theorem mem_keysA_foldl_mergeOne (ps : List Agg) :
    ∀ (acc : Agg) (k : String),
      k ∈ keysA (ps.foldl mergeOne acc) ↔
        k ∈ keysA acc ∨ ∃ p ∈ ps, k ∈ liveKeys p := by
  induction ps with
  | nil => intro acc k; simp
  | cons p t ih =>
    intro acc k
    simp only [List.foldl_cons, ih, mem_keysA_mergeOne, List.mem_cons]
    constructor
    · rintro ((hk | hk) | ⟨q, hq, hkq⟩)
      · exact Or.inl hk
      · exact Or.inr ⟨p, Or.inl rfl, hk⟩
      · exact Or.inr ⟨q, Or.inr hq, hkq⟩
    · rintro (hk | ⟨q, hq | hq, hkq⟩)
      · exact Or.inl (Or.inl hk)
      · exact Or.inl (Or.inr (hq ▸ hkq))
      · exact Or.inr ⟨q, hq, hkq⟩

theorem mem_keysA_mergeAll (ps : List Agg) (k : String) :
    k ∈ keysA (mergeAll ps) ↔ ∃ p ∈ ps, k ∈ liveKeys p := by
  have := mem_keysA_foldl_mergeOne ps [] k
  simpa [mergeAll, keysA] using this

theorem bumpLevels_ne_nil (l : Levels) (k : String) (n : Nat) :
    bumpLevels l k n ≠ [] := by
  cases l with
  | nil => simp [bumpLevels]
  | cons e t =>
    by_cases he : e.1 = k <;> simp [bumpLevels, he]

theorem nonemptyLevels_addCount (a : Agg) (h lvl : String) (n : Nat)
    (ha : NonemptyLevels a) : NonemptyLevels (addCount a h lvl n) := by
  induction a with
  | nil =>
    intro e he
    simp only [addCount, List.mem_singleton] at he
    subst he
    simp
  | cons f t ih =>
    intro e he
    by_cases hf : f.1 = h
    · simp only [addCount, if_pos hf, List.mem_cons] at he
      rcases he with he | he
      · subst he; exact bumpLevels_ne_nil _ _ _
      · exact ha e (List.mem_cons_of_mem _ he)
    · simp only [addCount, if_neg hf, List.mem_cons] at he
      rcases he with he | he
      · subst he; exact ha e (List.mem_cons_self _ _)
      · exact ih (fun x hx => ha x (List.mem_cons_of_mem _ hx)) e he

theorem nonemptyLevels_foldl_addCount (levels : Levels) (h : String) :
    ∀ (acc : Agg), NonemptyLevels acc →
      NonemptyLevels (levels.foldl (fun a le => addCount a h le.1 le.2) acc) := by
  induction levels with
  | nil => intro acc ha; simpa using ha
  | cons le t ih =>
    intro acc ha
    simp only [List.foldl_cons]
    exact ih _ (nonemptyLevels_addCount _ _ _ _ ha)

theorem nonemptyLevels_mergeOne (p : Agg) :
    ∀ (acc : Agg), NonemptyLevels acc → NonemptyLevels (mergeOne acc p) := by
  induction p with
  | nil => intro acc ha; simpa [mergeOne] using ha
  | cons e t ih =>
    intro acc ha
    have hstep : mergeOne acc (e :: t) =
        mergeOne (e.2.foldl (fun a le => addCount a e.1 le.1 le.2) acc) t := by
      simp [mergeOne]
    rw [hstep]
    exact ih _ (nonemptyLevels_foldl_addCount _ _ _ ha)

theorem nonemptyLevels_mergeAll (ps : List Agg) : NonemptyLevels (mergeAll ps) := by
  have : ∀ (acc : Agg), NonemptyLevels acc → NonemptyLevels (ps.foldl mergeOne acc) := by
    induction ps with
    | nil => intro acc ha; simpa using ha
    | cons p t ih =>
      intro acc ha
      simp only [List.foldl_cons]
      exact ih _ (nonemptyLevels_mergeOne _ _ ha)
  exact this [] (by intro e he; cases he)

theorem liveKeys_eq_keysA (a : Agg) (ha : NonemptyLevels a) :
    liveKeys a = keysA a := by
  unfold liveKeys keysA
  congr 1
  apply List.filter_eq_self.mpr
  intro e he
  simpa [List.isEmpty_iff] using ha e he

theorem mem_map_fst_bumpLevels (l : Levels) (k : String) (n : Nat) (j : String) :
    j ∈ (bumpLevels l k n).map (·.1) ↔ j ∈ l.map (·.1) ∨ j = k := by
  induction l with
  | nil => simp [bumpLevels]
  | cons e t ih =>
    by_cases he : e.1 = k
    · simp only [bumpLevels, if_pos he, List.map_cons, List.mem_cons]
      rw [he]
      tauto
    · simp only [bumpLevels, if_neg he, List.map_cons, List.mem_cons, ih]
      tauto

theorem wfLevels_bumpLevels (l : Levels) (k : String) (n : Nat) (hw : WFLevels l) :
    WFLevels (bumpLevels l k n) := by
  induction l with
  | nil => simp [bumpLevels, WFLevels]
  | cons e t ih =>
    rcases (List.nodup_cons.mp hw) with ⟨hnot, htail⟩
    by_cases he : e.1 = k
    · simpa [WFLevels, bumpLevels, he] using hw
    · have hbump := ih htail
      simp only [bumpLevels, if_neg he, WFLevels, List.map_cons]
      refine List.nodup_cons.mpr ⟨?_, hbump⟩
      intro hcon
      rcases (mem_map_fst_bumpLevels t k n e.1).mp hcon with hmem | heq
      · exact hnot hmem
      · exact he heq

theorem wfAgg_addCount (a : Agg) (h lvl : String) (n : Nat) (hw : WFAgg a) :
    WFAgg (addCount a h lvl n) := by
  induction a with
  | nil =>
    refine ⟨by simp [addCount], ?_⟩
    intro e he
    simp only [addCount, List.mem_singleton] at he
    subst he
    simp [WFLevels]
  | cons f t ih =>
    rcases hw with ⟨hnodup, hlv⟩
    rcases List.nodup_cons.mp hnodup with ⟨hnot, htail⟩
    by_cases hf : f.1 = h
    · refine ⟨by simpa [addCount, hf] using hnodup, ?_⟩
      intro e he
      simp only [addCount, if_pos hf, List.mem_cons] at he
      rcases he with he | he
      · subst he
        exact wfLevels_bumpLevels _ _ _ (hlv f (List.mem_cons_self _ _))
      · exact hlv e (List.mem_cons_of_mem _ he)
    · have hwt : WFAgg t := ⟨htail, fun e he => hlv e (List.mem_cons_of_mem _ he)⟩
      rcases ih hwt with ⟨hn2, hl2⟩
      constructor
      · simp only [addCount, if_neg hf, List.map_cons]
        refine List.nodup_cons.mpr ⟨?_, hn2⟩
        intro hcon
        rcases (mem_keysA_addCount t h lvl n f.1).mp hcon with hmem | heq
        · exact hnot hmem
        · exact hf heq
      · intro e he
        simp only [addCount, if_neg hf, List.mem_cons] at he
        rcases he with he | he
        · subst he; exact hlv e (List.mem_cons_self _ _)
        · exact hl2 e he

theorem wfAgg_foldl_addCount (levels : Levels) (h : String) :
    ∀ (acc : Agg), WFAgg acc →
      WFAgg (levels.foldl (fun a le => addCount a h le.1 le.2) acc) := by
  induction levels with
  | nil => intro acc ha; simpa using ha
  | cons le t ih =>
    intro acc ha
    simp only [List.foldl_cons]
    exact ih _ (wfAgg_addCount _ _ _ _ ha)

theorem wfAgg_mergeOne (p : Agg) :
    ∀ (acc : Agg), WFAgg acc → WFAgg (mergeOne acc p) := by
  induction p with
  | nil => intro acc ha; simpa [mergeOne] using ha
  | cons e t ih =>
    intro acc ha
    have hstep : mergeOne acc (e :: t) =
        mergeOne (e.2.foldl (fun a le => addCount a e.1 le.1 le.2) acc) t := by
      simp [mergeOne]
    rw [hstep]
    exact ih _ (wfAgg_foldl_addCount _ _ _ ha)

theorem wfAgg_mergeAll (ps : List Agg) : WFAgg (mergeAll ps) := by
  have : ∀ (acc : Agg), WFAgg acc → WFAgg (ps.foldl mergeOne acc) := by
    induction ps with
    | nil => intro acc ha; simpa using ha
    | cons p t ih =>
      intro acc ha
      simp only [List.foldl_cons]
      exact ih _ (wfAgg_mergeOne _ _ ha)
  exact this [] ⟨List.nodup_nil, fun e he => absurd he (List.not_mem_nil e)⟩

theorem cellLevels_eq_zero (l : Levels) (lvl : String) (h : lvl ∉ l.map (·.1)) :
    cellLevels l lvl = 0 := by
  induction l with
  | nil => rfl
  | cons e t ih =>
    simp only [List.map_cons, List.mem_cons, not_or] at h
    rw [cellLevels_cons, if_neg (fun hcon => h.1 hcon.symm), ih h.2]

theorem getCount_eq_cellLevels (l : Levels) (hw : WFLevels l) (lvl : String) :
    getCount l lvl = cellLevels l lvl := by
  induction l with
  | nil => rfl
  | cons e t ih =>
    rcases List.nodup_cons.mp hw with ⟨hnot, htail⟩
    by_cases he : e.1 = lvl
    · rw [cellLevels_cons, if_pos he]
      have hz : cellLevels t lvl = 0 := cellLevels_eq_zero t lvl (he ▸ hnot)
      have : getCount (e :: t) lvl = e.2 := by
        simp [getCount, List.find?_cons_of_pos, he]
      rw [this, hz]
      simp
    · have : getCount (e :: t) lvl = getCount t lvl := by
        simp [getCount, List.find?_cons_of_neg, he]
      rw [this, cellLevels_cons, if_neg he, ih htail]
      simp

theorem getCount_entry (a : Agg) (hw : WFAgg a) (e : String × Levels) (he : e ∈ a)
    (lvl : String) : getCount e.2 lvl = cellA a e.1 lvl := by
  induction a with
  | nil => cases he
  | cons f t ih =>
    rcases hw with ⟨hnodup, hlv⟩
    rcases List.nodup_cons.mp hnodup with ⟨hnot, htail⟩
    rcases List.mem_cons.mp he with he | he
    · subst he
      rw [cellA_cons, if_pos rfl,
        cellA_eq_zero t e.1 lvl (by simpa [keysA] using hnot),
        getCount_eq_cellLevels _ (hlv e (List.mem_cons_self _ _))]
      simp
    · have hfe : ¬f.1 = e.1 := by
        intro hcon
        exact hnot (by simpa [hcon] using List.mem_map_of_mem (·.1) he)
      rw [cellA_cons, if_neg hfe,
        ih ⟨htail, fun x hx => hlv x (List.mem_cons_of_mem _ hx)⟩ he]
      simp

/-!  Canonical form of `_merge_results`: the sorted deduplicated key set
paired with per-cell sums over the inputs.  This form is manifestly
independent of the order and the grouping of the partial results. -/

instance : IsTotal (String × Levels) (fun x y => x.1 ≤ y.1) :=
  ⟨fun a b => le_total a.1 b.1⟩

instance : IsTrans (String × Levels) (fun x y => x.1 ≤ y.1) :=
  ⟨fun _ _ _ h1 h2 => le_trans h1 h2⟩

instance : IsTotal DjangoReportData (fun a b => a.handler_name ≤ b.handler_name) :=
  ⟨fun a b => le_total a.handler_name b.handler_name⟩

instance : IsTrans DjangoReportData (fun a b => a.handler_name ≤ b.handler_name) :=
  ⟨fun _ _ _ h1 h2 => le_trans h1 h2⟩

/-- Ascending sort of a list of handler keys. -/
def sortStrings (l : List String) : List String :=
  List.insertionSort (· ≤ ·) l

/-- Sum of cell (`h`, `l`) over a list of partial aggregates. -/
def cellSum (ps : List Agg) (h l : String) : Nat :=
  (ps.map (fun p => cellA p h l)).sum

/-- The report row the merged result holds for key `h`: each counter is
the sum of that cell over all inputs (inputs missing the key contribute
zero). -/
def mkRow (ps : List Agg) (h : String) : DjangoReportData :=
  ⟨h, cellSum ps h "debug_count", cellSum ps h "info_count",
    cellSum ps h "warning_count", cellSum ps h "error_count",
    cellSum ps h "critical_count"⟩

/-- The merged key set: every key contributed by some input, sorted
ascending, without duplicates. -/
def canonKeys (ps : List Agg) : List String :=
  sortStrings ((ps.map liveKeys).join).dedup

/-- Canonical description of `_merge_results`' output. -/
def canonical (ps : List Agg) : List DjangoReportData :=
  (canonKeys ps).map (mkRow ps)

theorem sortStrings_sorted (l : List String) :
    List.Sorted (· ≤ ·) (sortStrings l) :=
  List.sorted_insertionSort _ l

theorem mem_sortStrings (l : List String) (k : String) :
    k ∈ sortStrings l ↔ k ∈ l :=
  (List.perm_insertionSort _ l).mem_iff

theorem merge_results_eq_canonical (ps : List Agg) :
    merge_results ps = canonical ps := by
  have hWF := wfAgg_mergeAll ps
  have hNE := nonemptyLevels_mergeAll ps
  have hperm : List.Perm (sortPairs (mergeAll ps)) (mergeAll ps) :=
    List.perm_insertionSort _ _
  have h1 : ∀ e ∈ sortPairs (mergeAll ps), toRow e.1 e.2 = mkRow ps e.1 := by
    intro e he
    have heM : e ∈ mergeAll ps := hperm.mem_iff.mp he
    have hget : ∀ lvl, getCount e.2 lvl = cellSum ps e.1 lvl := by
      intro lvl
      rw [getCount_entry (mergeAll ps) hWF e heM lvl, cellA_mergeAll]
      rfl
    simp [toRow, mkRow, hget]
  have h2 : (sortPairs (mergeAll ps)).map (·.1) = canonKeys ps := by
    apply List.eq_of_perm_of_sorted (r := (· ≤ · : String → String → Prop))
    · have pa : List.Perm ((sortPairs (mergeAll ps)).map (·.1)) (keysA (mergeAll ps)) :=
        hperm.map _
      have pb : List.Perm (canonKeys ps) (((ps.map liveKeys).join).dedup) :=
        List.perm_insertionSort _ _
      have pmid : List.Perm (keysA (mergeAll ps)) (((ps.map liveKeys).join).dedup) := by
        apply (List.perm_ext_iff_of_nodup hWF.1 (List.nodup_dedup _)).mpr
        intro k
        have hk := mem_keysA_mergeAll ps k
        simp only [keysA] at hk
        rw [List.mem_dedup, List.mem_join, hk]
        constructor
        · rintro ⟨p, hp, hkp⟩
          exact ⟨liveKeys p, List.mem_map_of_mem liveKeys hp, hkp⟩
        · rintro ⟨l, hl, hkl⟩
          rcases List.mem_map.mp hl with ⟨p, hp, rfl⟩
          exact ⟨p, hp, hkl⟩
      exact pa.trans (pmid.trans pb.symm)
    · have hs : List.Sorted (fun x y => x.1 ≤ y.1) (sortPairs (mergeAll ps)) :=
        List.sorted_insertionSort _ _
      exact (List.pairwise_map).mpr hs
    · exact sortStrings_sorted _
  calc merge_results ps
      = (sortPairs (mergeAll ps)).map (fun e => mkRow ps e.1) := by
        unfold merge_results
        exact List.map_congr_left h1
    _ = ((sortPairs (mergeAll ps)).map (·.1)).map (mkRow ps) := by
        rw [List.map_map]
        rfl
    _ = canonical ps := by rw [h2]; rfl

theorem canonKeys_eq_of_mem_iff (ps qs : List Agg)
    (h : ∀ k, (∃ p ∈ ps, k ∈ liveKeys p) ↔ ∃ p ∈ qs, k ∈ liveKeys p) :
    canonKeys ps = canonKeys qs := by
  apply List.eq_of_perm_of_sorted (r := (· ≤ · : String → String → Prop))
  · have pa : List.Perm (canonKeys ps) (((ps.map liveKeys).join).dedup) :=
      List.perm_insertionSort _ _
    have pb : List.Perm (canonKeys qs) (((qs.map liveKeys).join).dedup) :=
      List.perm_insertionSort _ _
    have pmid : List.Perm (((ps.map liveKeys).join).dedup)
        (((qs.map liveKeys).join).dedup) := by
      apply (List.perm_ext_iff_of_nodup (List.nodup_dedup _) (List.nodup_dedup _)).mpr
      intro k
      rw [List.mem_dedup, List.mem_join, List.mem_dedup, List.mem_join]
      constructor
      · rintro ⟨l, hl, hkl⟩
        rcases List.mem_map.mp hl with ⟨p, hp, rfl⟩
        rcases (h k).mp ⟨p, hp, hkl⟩ with ⟨q, hq, hkq⟩
        exact ⟨liveKeys q, List.mem_map_of_mem liveKeys hq, hkq⟩
      · rintro ⟨l, hl, hkl⟩
        rcases List.mem_map.mp hl with ⟨q, hq, rfl⟩
        rcases (h k).mpr ⟨q, hq, hkl⟩ with ⟨p, hp, hkp⟩
        exact ⟨liveKeys p, List.mem_map_of_mem liveKeys hp, hkp⟩
    exact pa.trans (pmid.trans pb.symm)
  · exact sortStrings_sorted _
  · exact sortStrings_sorted _

theorem canonical_congr (ps qs : List Agg)
    (hk : ∀ k, (∃ p ∈ ps, k ∈ liveKeys p) ↔ ∃ p ∈ qs, k ∈ liveKeys p)
    (hc : ∀ h l, cellSum ps h l = cellSum qs h l) :
    canonical ps = canonical qs := by
  unfold canonical
  rw [canonKeys_eq_of_mem_iff ps qs hk]
  apply List.map_congr_left
  intro h _
  simp [mkRow, hc]

theorem mem_liveKeys_mergeAll (ps : List Agg) (k : String) :
    k ∈ liveKeys (mergeAll ps) ↔ ∃ p ∈ ps, k ∈ liveKeys p := by
  rw [liveKeys_eq_keysA _ (nonemptyLevels_mergeAll ps)]
  exact mem_keysA_mergeAll ps k

/-- C2: merging partial aggregates is order- and grouping-independent:
`_merge_results` yields identical output on any permutation of its
input list; pre-merging a prefix or a suffix with the same accumulation
loop and then merging (incremental merging, in either grouping) equals
merging all at once; each output cell is the sum of that cell over all
inputs, with inputs lacking the key contributing zero (no error); and
the empty input list yields the empty result. -/
theorem merge_results_merge_algebra :
    (∀ ps qs : List Agg, List.Perm ps qs → merge_results ps = merge_results qs) ∧
    (∀ A B C : Agg, merge_results [mergeAll [A, B], C] = merge_results [A, B, C]) ∧
    (∀ A B C : Agg, merge_results [A, mergeAll [B, C]] = merge_results [A, B, C]) ∧
    (∀ (ps : List Agg) (h l : String),
      cellA (mergeAll ps) h l = (ps.map (fun p => cellA p h l)).sum) ∧
    (∀ (p : Agg) (h l : String), h ∉ keysA p → cellA p h l = 0) ∧
    merge_results ([] : List Agg) = [] := by
  refine ⟨?_, ?_, ?_, ?_, ?_, ?_⟩
  · intro ps qs hpq
    rw [merge_results_eq_canonical, merge_results_eq_canonical]
    apply canonical_congr
    · intro k
      constructor
      · rintro ⟨p, hp, hkp⟩; exact ⟨p, hpq.mem_iff.mp hp, hkp⟩
      · rintro ⟨p, hp, hkp⟩; exact ⟨p, hpq.mem_iff.mpr hp, hkp⟩
    · intro h l
      exact (hpq.map (fun p => cellA p h l)).sum_eq
  · intro A B C
    rw [merge_results_eq_canonical, merge_results_eq_canonical]
    apply canonical_congr
    · intro k
      simp only [List.mem_cons, List.not_mem_nil, or_false]
      constructor
      · rintro ⟨p, rfl | rfl, hkp⟩
        · rcases (mem_liveKeys_mergeAll [A, B] k).mp hkp with ⟨q, hq, hkq⟩
          simp only [List.mem_cons, List.not_mem_nil, or_false] at hq
          rcases hq with rfl | rfl
          · exact ⟨q, Or.inl rfl, hkq⟩
          · exact ⟨q, Or.inr (Or.inl rfl), hkq⟩
        · exact ⟨p, Or.inr (Or.inr rfl), hkp⟩
      · rintro ⟨p, rfl | rfl | rfl, hkp⟩
        · exact ⟨mergeAll [p, B], Or.inl rfl,
            (mem_liveKeys_mergeAll [p, B] k).mpr ⟨p, by simp, hkp⟩⟩
        · exact ⟨mergeAll [A, p], Or.inl rfl,
            (mem_liveKeys_mergeAll [A, p] k).mpr ⟨p, by simp, hkp⟩⟩
        · exact ⟨p, Or.inr rfl, hkp⟩
    · intro h l
      simp only [cellSum, List.map_cons, List.map_nil, List.sum_cons, List.sum_nil,
        cellA_mergeAll]
      omega
  · intro A B C
    rw [merge_results_eq_canonical, merge_results_eq_canonical]
    apply canonical_congr
    · intro k
      simp only [List.mem_cons, List.not_mem_nil, or_false]
      constructor
      · rintro ⟨p, rfl | rfl, hkp⟩
        · exact ⟨p, Or.inl rfl, hkp⟩
        · rcases (mem_liveKeys_mergeAll [B, C] k).mp hkp with ⟨q, hq, hkq⟩
          simp only [List.mem_cons, List.not_mem_nil, or_false] at hq
          rcases hq with rfl | rfl
          · exact ⟨q, Or.inr (Or.inl rfl), hkq⟩
          · exact ⟨q, Or.inr (Or.inr rfl), hkq⟩
      · rintro ⟨p, rfl | rfl | rfl, hkp⟩
        · exact ⟨p, Or.inl rfl, hkp⟩
        · exact ⟨mergeAll [p, C], Or.inr rfl,
            (mem_liveKeys_mergeAll [p, C] k).mpr ⟨p, by simp, hkp⟩⟩
        · exact ⟨mergeAll [B, p], Or.inr rfl,
            (mem_liveKeys_mergeAll [B, p] k).mpr ⟨p, by simp, hkp⟩⟩
    · intro h l
      simp only [cellSum, List.map_cons, List.map_nil, List.sum_cons, List.sum_nil,
        cellA_mergeAll]
      omega
  · exact cellA_mergeAll
  · exact cellA_eq_zero
  · rfl

theorem merge_results_merge_algebra_witness :
    (List.Perm [[(("/b" : String), [(("info_count" : String), (1 : Nat))])],
        [("/a", [("error_count", 2)])]]
      [[("/a", [("error_count", 2)])], [("/b", [("info_count", 1)])]] ∧
      merge_results [[("/b", [("info_count", 1)])], [("/a", [("error_count", 2)])]] =
        merge_results [[("/a", [("error_count", 2)])], [("/b", [("info_count", 1)])]]) ∧
    ("/zzz" ∉ keysA [("/a", [("info_count", 3)])] ∧
      cellA [("/a", [("info_count", 3)])] "/zzz" "info_count" = 0) :=
  ⟨⟨by decide, merge_results_merge_algebra.1 _ _ (by decide)⟩,
   ⟨by decide, merge_results_merge_algebra.2.2.2.2.1 _ "/zzz" "info_count" (by decide)⟩⟩

theorem cellA_processLine (a : Agg) (line : List Char) (h l : String) :
    cellA (processLine a line) h l = cellA a h l + cellA (processLine [] line) h l := by
  unfold processLine
  cases hp : parse_log_line line with
  | none => simp [cellA_nil]
  | some d =>
    by_cases hc : d.component = requestComponent
    · cases hh : d.handler with
      | none => simp [hc, hh, cellA_nil]
      | some hdl =>
        simp only [hc, hh, ite_true]
        rw [cellA_addCount, cellA_addCount, cellA_nil]
        omega
    · simp [hc, cellA_nil]

theorem mem_keysA_processLine (a : Agg) (line : List Char) (k : String) :
    k ∈ keysA (processLine a line) ↔ k ∈ keysA a ∨ k ∈ keysA (processLine [] line) := by
  unfold processLine
  cases hp : parse_log_line line with
  | none => simp [keysA]
  | some d =>
    by_cases hc : d.component = requestComponent
    · cases hh : d.handler with
      | none => simp [hc, hh, keysA]
      | some hdl =>
        simp only [hc, hh, ite_true]
        rw [mem_keysA_addCount, mem_keysA_addCount]
        simp [keysA]
    · simp [hc, keysA]

theorem nonemptyLevels_processLine (a : Agg) (line : List Char)
    (ha : NonemptyLevels a) : NonemptyLevels (processLine a line) := by
  unfold processLine
  cases hp : parse_log_line line with
  | none => exact ha
  | some d =>
    by_cases hc : d.component = requestComponent
    · cases hh : d.handler with
      | none => simpa [hc, hh] using ha
      | some hdl =>
        simp only [hc, hh, ite_true]
        exact nonemptyLevels_addCount _ _ _ _ ha
    · simpa [hc] using ha

theorem nonemptyLevels_foldl_processLine (lines : List (List Char)) :
    ∀ (acc : Agg), NonemptyLevels acc → NonemptyLevels (lines.foldl processLine acc) := by
  induction lines with
  | nil => intro acc ha; simpa using ha
  | cons x xs ih =>
    intro acc ha
    simp only [List.foldl_cons]
    exact ih _ (nonemptyLevels_processLine _ _ ha)

theorem nonemptyLevels_process_single_file (lines : List (List Char)) :
    NonemptyLevels (process_single_file lines) :=
  nonemptyLevels_foldl_processLine lines [] (fun e he => absurd he (List.not_mem_nil e))

theorem cellA_foldl_processLine (lines : List (List Char)) :
    ∀ (acc : Agg) (h l : String),
      cellA (lines.foldl processLine acc) h l =
        cellA acc h l + cellA (process_single_file lines) h l := by
  induction lines with
  | nil => intro acc h l; simp [process_single_file, cellA_nil]
  | cons x xs ih =>
    intro acc h l
    have h2 := ih (processLine acc x) h l
    have h3 := ih (processLine [] x) h l
    have h4 := cellA_processLine acc x h l
    simp only [List.foldl_cons, process_single_file] at *
    omega

theorem mem_keysA_foldl_processLine (lines : List (List Char)) :
    ∀ (acc : Agg) (k : String),
      k ∈ keysA (lines.foldl processLine acc) ↔
        k ∈ keysA acc ∨ k ∈ keysA (process_single_file lines) := by
  induction lines with
  | nil => intro acc k; simp [process_single_file, keysA]
  | cons x xs ih =>
    intro acc k
    have h2 := ih (processLine acc x) k
    have h3 := ih (processLine [] x) k
    have h4 := mem_keysA_processLine acc x k
    simp only [List.foldl_cons, process_single_file] at *
    rw [h2, h3, h4]
    tauto

theorem cellA_process_append (la lb : List (List Char)) (h l : String) :
    cellA (process_single_file (la ++ lb)) h l =
      cellA (process_single_file la) h l + cellA (process_single_file lb) h l := by
  have : process_single_file (la ++ lb) =
      lb.foldl processLine (process_single_file la) := by
    simp [process_single_file, List.foldl_append]
  rw [this, cellA_foldl_processLine]

theorem mem_keysA_process_append (la lb : List (List Char)) (k : String) :
    k ∈ keysA (process_single_file (la ++ lb)) ↔
      k ∈ keysA (process_single_file la) ∨ k ∈ keysA (process_single_file lb) := by
  have : process_single_file (la ++ lb) =
      lb.foldl processLine (process_single_file la) := by
    simp [process_single_file, List.foldl_append]
  rw [this, mem_keysA_foldl_processLine]

/-- C3: per-source aggregation distributes over any contiguous split of
the line sequence: aggregating two halves separately and merging the two
partial aggregates equals aggregating the unsplit sequence as a single
source. -/
theorem process_split_merge (la lb : List (List Char)) :
    merge_results [process_single_file la, process_single_file lb] =
      merge_results [process_single_file (la ++ lb)] := by
  rw [merge_results_eq_canonical, merge_results_eq_canonical]
  apply canonical_congr
  · intro k
    have hla := liveKeys_eq_keysA _ (nonemptyLevels_process_single_file la)
    have hlb := liveKeys_eq_keysA _ (nonemptyLevels_process_single_file lb)
    have hab := liveKeys_eq_keysA _ (nonemptyLevels_process_single_file (la ++ lb))
    simp only [List.mem_cons, List.not_mem_nil, or_false]
    constructor
    · rintro ⟨p, rfl | rfl, hkp⟩
      · exact ⟨process_single_file (la ++ lb), rfl, by
          rw [hab]
          exact (mem_keysA_process_append la lb k).mpr (Or.inl (by rwa [hla] at hkp))⟩
      · exact ⟨process_single_file (la ++ lb), rfl, by
          rw [hab]
          exact (mem_keysA_process_append la lb k).mpr (Or.inr (by rwa [hlb] at hkp))⟩
    · rintro ⟨p, rfl, hkp⟩
      rw [hab] at hkp
      rcases (mem_keysA_process_append la lb k).mp hkp with hk | hk
      · exact ⟨process_single_file la, Or.inl rfl, by rwa [hla]⟩
      · exact ⟨process_single_file lb, Or.inr rfl, by rwa [hlb]⟩
  · intro h l
    simp only [cellSum, List.map_cons, List.map_nil, List.sum_cons, List.sum_nil,
      cellA_process_append]
    omega

/-- C10: the list `_merge_results` returns is already sorted ascending
by `handler_name` for every input (row order is imposed at the merge
step), and hence so is the output of `process_files` in either mode —
in addition to the sort the renderer performs on its own input. -/
theorem merge_results_output_sorted :
    (∀ ps : List Agg,
      List.Pairwise (fun a b => a.handler_name ≤ b.handler_name) (merge_results ps)) ∧
    (∀ (useMp : Bool) (sched : List Nat) (files : List (List (List Char))),
      List.Pairwise (fun a b => a.handler_name ≤ b.handler_name)
        (process_files useMp sched files)) := by
  have hmain : ∀ ps : List Agg,
      List.Pairwise (fun a b => a.handler_name ≤ b.handler_name) (merge_results ps) := by
    intro ps
    unfold merge_results
    apply List.pairwise_map.mpr
    have hs : List.Pairwise (fun x y : String × Levels => x.1 ≤ y.1)
        (sortPairs (mergeAll ps)) :=
      List.sorted_insertionSort _ _
    exact List.Pairwise.imp (fun hab => hab) hs
  refine ⟨hmain, ?_⟩
  intro useMp sched files
  cases useMp <;> simp only [process_files, if_true, if_false, Bool.false_eq_true,
    Bool.true_eq_false, ite_true, ite_false] <;> exact hmain _

/-- C8: on the empty statistics list the report is exactly the fixed
no-data message — no header, no totals row, no total-requests line. -/
theorem generate_empty_no_data :
    generate [] = "No data available for report." := rfl

/-- C5: for nonempty statistics the report is the total-requests line
(whose count is the sum of all counters over all handlers and
severities), the header, one row per handler in ascending
`handler_name` order, and exactly one final totals row with an empty
identifier whose five counters are the column-wise sums. -/
theorem handlers_report_generate_spec (stats : List DjangoReportData)
    (h : stats ≠ []) :
    ∃ ss : List DjangoReportData,
      List.Perm stats ss ∧
      List.Pairwise (fun a b => a.handler_name ≤ b.handler_name) ss ∧
      generate stats =
        String.intercalate "\n"
          (("Total requests: " ++
              toString ((stats.map (fun s =>
                s.debug_count + s.info_count + s.warning_count + s.error_count +
                  s.critical_count)).sum) ++ "\n")
            :: get_header
            :: (ss.map (fun r => format_statistics r.handler_name r)
                ++ [format_statistics ""
                      ⟨"", (stats.map (·.debug_count)).sum,
                        (stats.map (·.info_count)).sum,
                        (stats.map (·.warning_count)).sum,
                        (stats.map (·.error_count)).sum,
                        (stats.map (·.critical_count)).sum⟩])) := by
  refine ⟨sortStats stats, (List.perm_insertionSort _ _).symm,
    List.sorted_insertionSort _ _, ?_⟩
  have hne : stats.isEmpty = false := by
    cases stats with
    | nil => exact absurd rfl h
    | cons a t => rfl
  simp [generate, hne, calculate_total, create_totals, sortStats]

theorem handlers_report_generate_spec_witness :
    ∃ ss : List DjangoReportData,
      List.Perm [⟨"/b", 1, 0, 0, 0, 0⟩, ⟨"/a", 0, 2, 0, 0, 0⟩] ss ∧
      List.Pairwise (fun a b => a.handler_name ≤ b.handler_name) ss ∧
      generate [⟨"/b", 1, 0, 0, 0, 0⟩, ⟨"/a", 0, 2, 0, 0, 0⟩] =
        String.intercalate "\n"
          (("Total requests: " ++
              toString ((([⟨"/b", 1, 0, 0, 0, 0⟩, ⟨"/a", 0, 2, 0, 0, 0⟩] :
                  List DjangoReportData).map (fun s =>
                s.debug_count + s.info_count + s.warning_count + s.error_count +
                  s.critical_count)).sum) ++ "\n")
            :: get_header
            :: (ss.map (fun r => format_statistics r.handler_name r)
                ++ [format_statistics ""
                      ⟨"", (([⟨"/b", 1, 0, 0, 0, 0⟩, ⟨"/a", 0, 2, 0, 0, 0⟩] :
                          List DjangoReportData).map (·.debug_count)).sum,
                        (([⟨"/b", 1, 0, 0, 0, 0⟩, ⟨"/a", 0, 2, 0, 0, 0⟩] :
                          List DjangoReportData).map (·.info_count)).sum,
                        (([⟨"/b", 1, 0, 0, 0, 0⟩, ⟨"/a", 0, 2, 0, 0, 0⟩] :
                          List DjangoReportData).map (·.warning_count)).sum,
                        (([⟨"/b", 1, 0, 0, 0, 0⟩, ⟨"/a", 0, 2, 0, 0, 0⟩] :
                          List DjangoReportData).map (·.error_count)).sum,
                        (([⟨"/b", 1, 0, 0, 0, 0⟩, ⟨"/a", 0, 2, 0, 0, 0⟩] :
                          List DjangoReportData).map (·.critical_count)).sum⟩])) :=
  handlers_report_generate_spec _ (by decide)

instance : IsTotal (Nat × Agg) (fun a b => a.1 ≤ b.1) :=
  ⟨fun a b => Nat.le_total a.1 b.1⟩

instance : IsTrans (Nat × Agg) (fun a b => a.1 ≤ b.1) :=
  ⟨fun _ _ _ h1 h2 => Nat.le_trans h1 h2⟩

instance : IsAntisymm (Nat × Agg) (fun a b => a.1 < b.1) :=
  ⟨fun _ _ h1 h2 => absurd (Nat.lt_trans h1 h2) (Nat.lt_irrefl _)⟩

theorem range_map_getD {α β : Type} (l : List α) (d : α) (f : α → β) :
    (List.range l.length).map (fun i => f (l.getD i d)) = l.map f := by
  induction l with
  | nil => simp
  | cons x xs ih =>
    rw [List.length_cons, List.range_succ_eq_map]
    simp only [List.map_cons, List.getD_cons_zero, List.map_map]
    have hcomp : ∀ i ∈ List.range xs.length,
        ((fun i => f ((x :: xs).getD i d)) ∘ Nat.succ) i = f (xs.getD i d) := by
      intro i _
      simp [List.getD_cons_succ]
    rw [List.map_congr_left hcomp, ih]

theorem poolMapCollect_eq (files : List (List (List Char))) (sched : List Nat)
    (hs : List.Perm sched (List.range files.length)) :
    poolMapCollect sched files = files.map process_single_file := by
  have htag : List.Perm
      (sched.map (fun i => (i, process_single_file (files.getD i []))))
      ((List.range files.length).map
        (fun i => (i, process_single_file (files.getD i [])))) :=
    hs.map _
  have hsorted_target : List.Pairwise (fun a b : Nat × Agg => a.1 < b.1)
      ((List.range files.length).map
        (fun i => (i, process_single_file (files.getD i [])))) := by
    apply List.pairwise_map.mpr
    exact (List.pairwise_lt_range _).imp (fun hab => hab)
  have hnodup : ((List.insertionSort (fun a b : Nat × Agg => a.1 ≤ b.1)
      (sched.map (fun i => (i, process_single_file (files.getD i []))))).map
      (·.1)).Nodup := by
    have hp1 : List.Perm
        ((List.insertionSort (fun a b : Nat × Agg => a.1 ≤ b.1)
          (sched.map (fun i => (i, process_single_file (files.getD i []))))).map (·.1))
        ((sched.map (fun i => (i, process_single_file (files.getD i [])))).map (·.1)) :=
      (List.perm_insertionSort _ _).map _
    have hp2 : ((sched.map (fun i => (i, process_single_file (files.getD i [])))).map
        (fun x => x.1)) = sched := by
      rw [List.map_map]
      show List.map (fun i => i) sched = sched
      simp
    rw [hp2] at hp1
    exact hp1.nodup_iff.mpr (hs.nodup_iff.mpr (List.nodup_range _))
  have hsorted_sort : List.Pairwise (fun a b : Nat × Agg => a.1 < b.1)
      (List.insertionSort (fun a b : Nat × Agg => a.1 ≤ b.1)
        (sched.map (fun i => (i, process_single_file (files.getD i []))))) := by
    have h1 : List.Pairwise (fun a b : Nat × Agg => a.1 ≤ b.1)
        (List.insertionSort (fun a b : Nat × Agg => a.1 ≤ b.1)
          (sched.map (fun i => (i, process_single_file (files.getD i []))))) :=
      List.sorted_insertionSort _ _
    have h2 : List.Pairwise (fun a b : Nat × Agg => a.1 ≠ b.1)
        (List.insertionSort (fun a b : Nat × Agg => a.1 ≤ b.1)
          (sched.map (fun i => (i, process_single_file (files.getD i []))))) :=
      List.pairwise_map.mp hnodup
    exact (h1.and h2).imp (fun hab => Nat.lt_of_le_of_ne hab.1 hab.2)
  have hsort_eq : List.insertionSort (fun a b : Nat × Agg => a.1 ≤ b.1)
      (sched.map (fun i => (i, process_single_file (files.getD i [])))) =
      (List.range files.length).map
        (fun i => (i, process_single_file (files.getD i []))) :=
    List.eq_of_perm_of_sorted ((List.perm_insertionSort _ _).trans htag)
      hsorted_sort hsorted_target
  unfold poolMapCollect
  rw [hsort_eq, List.map_map]
  exact range_map_getD files [] process_single_file

/-- C4: `process_files` returns the same merged result with the worker
pool enabled (any completion schedule, hence any worker count) as with
the sequential comprehension: the output is a pure function of the
sources. -/
theorem process_files_mode_independent (files : List (List (List Char)))
    (sched : List Nat) (hs : List.Perm sched (List.range files.length)) :
    process_files true sched files = process_files false sched files := by
  have h1 : process_files true sched files =
      merge_results (poolMapCollect sched files) := by
    simp [process_files]
  have h2 : process_files false sched files =
      merge_results (files.map process_single_file) := by
    simp [process_files]
  rw [h1, h2, poolMapCollect_eq files sched hs]

theorem process_files_mode_independent_witness :
    List.Perm [1, 0] (List.range 2) ∧
    process_files true [1, 0]
        [["2024-03-28 10:15:30,123 INFO django.request: GET /api/a".toList],
         ["2024-03-28 10:15:31,456 ERROR django.request: Error: /api/b".toList]] =
      process_files false [1, 0]
        [["2024-03-28 10:15:30,123 INFO django.request: GET /api/a".toList],
         ["2024-03-28 10:15:31,456 ERROR django.request: Error: /api/b".toList]] :=
  ⟨by decide, process_files_mode_independent _ _ (by decide)⟩

/-- C6 (counterexample): with two failing sources, the batch run
surfaces only the first source's `LogFileError`; the error names
`app1.log` alone and carries a single (source, cause) pair, not the
list of every failing source with its cause. -/
theorem process_files_first_failure_only :
    process_files_seq
      [Except.error ("app1.log", "No such file or directory"),
       Except.error ("app2.log", "No such file or directory")] =
      Except.error ("app1.log", "No such file or directory") := rfl

/-- C6 (amended): when sources fail during a batch run, the error the
caller sees is exactly the first failure in input order, carrying that
one source and its cause; later failures are not reported
(`MultipleFilesError` is defined and handled but never raised). -/
theorem process_files_reports_first_error
    (srcs : List (Except (String × String) (List (List Char))))
    (e : String × String) (h : firstError srcs = some e) :
    process_files_seq srcs = Except.error e := by
  induction srcs with
  | nil => simp [firstError] at h
  | cons s t ih =>
    cases s with
    | error e0 =>
      have he : e0 = e := by
        simpa [firstError, List.findSome?_cons] using h
      subst he
      rfl
    | ok v =>
      have h' : firstError t = some e := by
        simpa [firstError, List.findSome?_cons] using h
      have hrec := ih h'
      unfold process_files_seq at hrec ⊢
      cases hct : collectResults t with
      | error e1 =>
        rw [hct] at hrec
        simp only [Except.map] at hrec
        simp only [collectResults, hct, Except.map]
        exact hrec
      | ok rest =>
        rw [hct] at hrec
        simp [Except.map] at hrec

/-!  Declarative shape of the strings accepted by `BASE_PATTERN`, and
soundness/completeness of the parser with respect to it. -/

/-- A run of exactly `n` decimal digits. -/
def IsDigitRun (d : List Char) (n : Nat) : Prop :=
  d.length = n ∧ ∀ c ∈ d, c.isDigit = true

/-- A nonempty whitespace run. -/
def IsWsRun1 (w : List Char) : Prop :=
  w ≠ [] ∧ ∀ c ∈ w, isSpaceChar c = true

instance (d : List Char) (n : Nat) : Decidable (IsDigitRun d n) :=
  inferInstanceAs (Decidable (d.length = n ∧ ∀ c ∈ d, c.isDigit = true))

instance (w : List Char) : Decidable (IsWsRun1 w) :=
  inferInstanceAs (Decidable (w ≠ [] ∧ ∀ c ∈ w, isSpaceChar c = true))

/-- A nonempty run of word characters. -/
def IsWordRun1 (wd : List Char) : Prop :=
  wd ≠ [] ∧ ∀ c ∈ wd, isWordChar c = true

instance (wd : List Char) : Decidable (IsWordRun1 wd) :=
  inferInstanceAs (Decidable (wd ≠ [] ∧ ∀ c ∈ wd, isWordChar c = true))

/-- The `timestamp` group's shape `YYYY-MM-DD HH:MM:SS,mmm`, where the
separating blank is any nonempty whitespace run (`\s+` in the
pattern). -/
def TimestampShape (ts : List Char) : Prop :=
  ∃ y mo d w hh mi ss ms,
    IsDigitRun y 4 ∧ IsDigitRun mo 2 ∧ IsDigitRun d 2 ∧ IsWsRun1 w ∧
    IsDigitRun hh 2 ∧ IsDigitRun mi 2 ∧ IsDigitRun ss 2 ∧ IsDigitRun ms 3 ∧
    ts = y ++ '-' :: mo ++ '-' :: d ++ w ++ hh ++ ':' :: mi ++ ':' :: ss ++ ',' :: ms

/-- The `(?:\.\w+)*` shape: a concatenation of `.word` segments. -/
def DottedShape (d : List Char) : Prop :=
  ∃ parts : List (List Char),
    (∀ p ∈ parts, IsWordRun1 p) ∧ d = (parts.map (fun p => '.' :: p)).join

/-- The `component` group's shape: the fixed root namespace token
`django.` then a dotted name. -/
def ComponentShape (comp : List Char) : Prop :=
  ∃ wd d, IsWordRun1 wd ∧ DottedShape d ∧
    comp = "django.".toList ++ wd ++ d

/-- Shape of the text after the colon when something other than
whitespace follows the separator: the captured message starts at the
first non-whitespace character and runs to the next newline (or the end
of the string). -/
def TailShapeA (tail msg : List Char) : Prop :=
  ∃ sep suffix, IsWsRun1 sep ∧ msg ≠ [] ∧
    (∀ c, msg.head? = some c → isSpaceChar c = false) ∧
    '\n' ∉ msg ∧ (suffix = [] ∨ suffix.head? = some '\n') ∧
    tail = sep ++ msg ++ suffix

/-- Shape of the text after the colon when it is whitespace only: the
greedy `\s+` backtracks and `.+` captures the single last whitespace
character that is not a newline, which must sit at position one or
later. -/
def TailShapeB (tail msg : List Char) : Prop :=
  ∃ sep c nls, IsWsRun1 sep ∧ isSpaceChar c = true ∧ c ≠ '\n' ∧
    (∀ x ∈ nls, x = '\n') ∧ msg = [c] ∧ tail = sep ++ c :: nls

/-- Full shape of a line accepted by `BASE_PATTERN` (anchored at the
start), together with the four captured substrings. -/
def Decomp (line ts lvl comp msg : List Char) : Prop :=
  ∃ ws1 ws2 tail,
    TimestampShape ts ∧ IsWsRun1 ws1 ∧ lvl ∈ levelTokens ∧ IsWsRun1 ws2 ∧
    ComponentShape comp ∧ (TailShapeA tail msg ∨ TailShapeB tail msg) ∧
    line = ts ++ ws1 ++ lvl ++ ws2 ++ comp ++ ':' :: tail

theorem isSpaceChar_of_newline : isSpaceChar '\n' = true := rfl

theorem ne_newline_of_not_space (c : Char) (h : isSpaceChar c = false) : c ≠ '\n' := by
  intro hcon
  subst hcon
  exact absurd h (by decide)

theorem isSpaceChar_eq_false_of_isDigit (c : Char) (h : c.isDigit = true) :
    isSpaceChar c = false := by
  revert h
  simp only [Char.isDigit, isSpaceChar, Bool.or_eq_true, decide_eq_true_eq,
    Bool.and_eq_true]
  rintro ⟨h1, h2⟩
  simp only [Bool.or_eq_false_iff, decide_eq_false_iff_not]
  refine ⟨⟨⟨⟨⟨?_, ?_⟩, ?_⟩, ?_⟩, ?_⟩, ?_⟩ <;>
    rintro rfl <;> revert h1 h2 <;> decide

/-- Splitting a list at its maximal prefix satisfying `p`. -/
theorem span_spec (p : Char → Bool) (s : List Char) :
    s = s.takeWhile p ++ s.dropWhile p ∧
    (∀ c ∈ s.takeWhile p, p c = true) ∧
    (∀ c, (s.dropWhile p).head? = some c → p c = false) := by
  induction s with
  | nil => exact ⟨rfl, fun c hc => absurd hc (List.not_mem_nil c), fun c hc => by cases hc⟩
  | cons x t ih =>
    cases hx : p x with
    | true =>
      refine ⟨?_, ?_, ?_⟩
      · simp only [List.takeWhile_cons, List.dropWhile_cons, hx, ite_true, List.cons_append]
        exact congrArg (x :: ·) ih.1
      · intro c hc
        simp only [List.takeWhile_cons, hx, ite_true, List.mem_cons] at hc
        rcases hc with rfl | hc
        · exact hx
        · exact ih.2.1 c hc
      · intro c hc
        simp only [List.dropWhile_cons, hx, ite_true] at hc
        exact ih.2.2 c hc
    | false =>
      refine ⟨?_, ?_, ?_⟩
      · simp [List.takeWhile_cons, List.dropWhile_cons, hx]
      · intro c hc
        simp [List.takeWhile_cons, hx] at hc
      · intro c hc
        simp [List.dropWhile_cons, hx] at hc
        subst hc
        exact hx

/-- A maximal run: `takeWhile`/`dropWhile` split `w ++ r` exactly at the
given boundary when every character of `w` satisfies `p` and the first
character of `r` (if any) does not. -/
theorem takeWhile_append_eq (p : Char → Bool) (w r : List Char)
    (hw : ∀ c ∈ w, p c = true) (hr : ∀ c, r.head? = some c → p c = false) :
    (w ++ r).takeWhile p = w ∧ (w ++ r).dropWhile p = r := by
  induction w with
  | nil =>
    simp only [List.nil_append]
    cases r with
    | nil => simp
    | cons y t =>
      have hy : p y = false := hr y rfl
      simp [List.takeWhile_cons, List.dropWhile_cons, hy]
  | cons x t ih =>
    have hx : p x = true := hw x (List.mem_cons_self _ _)
    have iht := ih (fun c hc => hw c (List.mem_cons_of_mem _ hc))
    simp only [List.cons_append, List.takeWhile_cons, List.dropWhile_cons, hx, ite_true]
    exact ⟨congrArg (x :: ·) iht.1, iht.2⟩

theorem takeDigits_sound (n : Nat) :
    ∀ (s d r : List Char), takeDigits n s = some (d, r) →
      s = d ++ r ∧ IsDigitRun d n := by
  induction n with
  | zero =>
    intro s d r h
    simp only [takeDigits, Option.some_inj, Prod.mk.injEq] at h
    rcases h with ⟨rfl, rfl⟩
    exact ⟨rfl, rfl, fun c hc => absurd hc (List.not_mem_nil c)⟩
  | succ m ih =>
    intro s d r h
    cases s with
    | nil => simp [takeDigits] at h
    | cons c t =>
      simp only [takeDigits] at h
      cases hc : c.isDigit with
      | false => rw [hc] at h; simp at h
      | true =>
        rw [hc] at h
        simp only [ite_true, Option.map_eq_some'] at h
        rcases h with ⟨⟨d0, r0⟩, hd0, heq⟩
        rcases ih t d0 r0 hd0 with ⟨rfl, hlen, hdig⟩
        cases heq
        refine ⟨rfl, by simp [hlen], ?_⟩
        intro x hx
        rcases List.mem_cons.mp hx with rfl | hx
        · exact hc
        · exact hdig x hx

theorem takeDigits_complete (n : Nat) :
    ∀ (d r : List Char), IsDigitRun d n → takeDigits n (d ++ r) = some (d, r) := by
  induction n with
  | zero =>
    intro d r hd
    have : d = [] := List.length_eq_zero.mp hd.1
    subst this
    rfl
  | succ m ih =>
    intro d r hd
    cases d with
    | nil => exact absurd hd.1 (by simp)
    | cons c t =>
      have hc : c.isDigit = true := hd.2 c (List.mem_cons_self _ _)
      have ht : IsDigitRun t m := by
        refine ⟨?_, fun x hx => hd.2 x (List.mem_cons_of_mem _ hx)⟩
        have := hd.1
        simpa using this
      have hstep : (c :: t) ++ r = c :: (t ++ r) := rfl
      rw [hstep]
      simp only [takeDigits, hc, ite_true]
      rw [ih t r ht]
      rfl

theorem expectChar_sound (c : Char) (s r : List Char) (h : expectChar c s = some r) :
    s = c :: r := by
  cases s with
  | nil => simp [expectChar] at h
  | cons x t =>
    simp only [expectChar] at h
    by_cases hx : x = c
    · rw [if_pos hx] at h
      cases h
      rw [hx]
    · rw [if_neg hx] at h
      cases h

theorem expectChar_complete (c : Char) (r : List Char) :
    expectChar c (c :: r) = some r := by
  simp [expectChar]

theorem expectTok_sound (t : List Char) :
    ∀ (s r : List Char), expectTok t s = some r → s = t ++ r := by
  induction t with
  | nil =>
    intro s r h
    simp only [expectTok, Option.some_inj] at h
    rw [h]
    rfl
  | cons c ct ih =>
    intro s r h
    cases s with
    | nil => simp [expectTok] at h
    | cons x xs =>
      simp only [expectTok] at h
      by_cases hx : x = c
      · rw [if_pos hx] at h
        rw [List.cons_append, ← ih xs r h, hx]
      · rw [if_neg hx] at h
        cases h

theorem expectTok_complete (t : List Char) :
    ∀ (r : List Char), expectTok t (t ++ r) = some r := by
  induction t with
  | nil => intro r; rfl
  | cons c ct ih =>
    intro r
    have hstep : (c :: ct) ++ r = c :: (ct ++ r) := rfl
    rw [hstep]
    simp only [expectTok, ite_true]
    exact ih r

theorem takeWs1_sound (s w r : List Char) (h : takeWs1 s = some (w, r)) :
    s = w ++ r ∧ IsWsRun1 w ∧ (∀ c, r.head? = some c → isSpaceChar c = false) := by
  have hspan := span_spec isSpaceChar s
  simp only [takeWs1] at h
  by_cases he : (s.takeWhile isSpaceChar).isEmpty
  · rw [if_pos he] at h
    cases h
  · rw [if_neg he] at h
    simp only [Option.some_inj, Prod.mk.injEq] at h
    rcases h with ⟨rfl, rfl⟩
    exact ⟨hspan.1, ⟨by simpa [List.isEmpty_iff] using he, hspan.2.1⟩, hspan.2.2⟩

theorem takeWs1_complete (w r : List Char) (hw : IsWsRun1 w)
    (hr : ∀ c, r.head? = some c → isSpaceChar c = false) :
    takeWs1 (w ++ r) = some (w, r) := by
  have hsplit := takeWhile_append_eq isSpaceChar w r hw.2 hr
  simp only [takeWs1, hsplit.1, hsplit.2]
  rw [if_neg (by simpa [List.isEmpty_iff] using hw.1)]

theorem parseTimestamp_sound (s ts r : List Char)
    (h : parseTimestamp s = some (ts, r)) :
    s = ts ++ r ∧ TimestampShape ts := by
  unfold parseTimestamp at h
  split at h
  · simp at h
  rename_i p1 y r1 hy
  split at h
  · simp at h
  rename_i r2 hc1
  split at h
  · simp at h
  rename_i p2 mo r3 hmo
  split at h
  · simp at h
  rename_i r4 hc2
  split at h
  · simp at h
  rename_i p3 d r5 hd
  split at h
  · simp at h
  rename_i p4 w r6 hw
  split at h
  · simp at h
  rename_i p5 hh r7 hhh
  split at h
  · simp at h
  rename_i r8 hc3
  split at h
  · simp at h
  rename_i p6 mi r9 hmi
  split at h
  · simp at h
  rename_i r10 hc4
  split at h
  · simp at h
  rename_i p7 ss r11 hss
  split at h
  · simp at h
  rename_i r12 hc5
  split at h
  · simp at h
  rename_i p8 ms r13 hms
  simp only [Option.some_inj, Prod.mk.injEq] at h
  rcases takeDigits_sound 4 s y r1 hy with ⟨e0, hy2⟩
  have e1 := expectChar_sound '-' r1 r2 hc1
  rcases takeDigits_sound 2 r2 mo r3 hmo with ⟨e2, hmo2⟩
  have e3 := expectChar_sound '-' r3 r4 hc2
  rcases takeDigits_sound 2 r4 d r5 hd with ⟨e4, hd2⟩
  rcases takeWs1_sound r5 w r6 hw with ⟨e5, hw2, _⟩
  rcases takeDigits_sound 2 r6 hh r7 hhh with ⟨e6, hh2⟩
  have e7 := expectChar_sound ':' r7 r8 hc3
  rcases takeDigits_sound 2 r8 mi r9 hmi with ⟨e8, hmi2⟩
  have e9 := expectChar_sound ':' r9 r10 hc4
  rcases takeDigits_sound 2 r10 ss r11 hss with ⟨e10, hss2⟩
  have e11 := expectChar_sound ',' r11 r12 hc5
  rcases takeDigits_sound 3 r12 ms r13 hms with ⟨e12, hms2⟩
  constructor
  · rw [← h.2, ← h.1, e0, e1, e2, e3, e4, e5, e6, e7, e8, e9, e10, e11, e12]
    simp [List.append_assoc]
  · rw [← h.1]
    exact ⟨y, mo, d, w, hh, mi, ss, ms, hy2, hmo2, hd2, hw2, hh2, hmi2, hss2, hms2, rfl⟩

theorem parseTimestamp_complete (y mo d w hh mi ss ms rest : List Char)
    (hy : IsDigitRun y 4) (hmo : IsDigitRun mo 2) (hd : IsDigitRun d 2)
    (hw : IsWsRun1 w) (hhh : IsDigitRun hh 2) (hmi : IsDigitRun mi 2)
    (hss : IsDigitRun ss 2) (hms : IsDigitRun ms 3) :
    parseTimestamp
        (y ++ '-' :: (mo ++ '-' :: (d ++ (w ++
          (hh ++ ':' :: (mi ++ ':' :: (ss ++ ',' :: (ms ++ rest)))))))) =
      some (y ++ '-' :: mo ++ '-' :: d ++ w ++ hh ++ ':' :: mi ++ ':' :: ss ++ ',' :: ms,
        rest) := by
  have hhead : ∀ c, (hh ++ ':' :: (mi ++ ':' :: (ss ++ ',' :: (ms ++ rest)))).head? = some c →
      isSpaceChar c = false := by
    intro c hc
    cases hhe : hh with
    | nil => rw [hhe] at hhh; exact absurd hhh.1.symm (by simp)
    | cons hc0 ht =>
      rw [hhe] at hc
      simp only [List.cons_append, List.head?_cons, Option.some_inj] at hc
      subst hc
      exact isSpaceChar_eq_false_of_isDigit _
        (hhh.2 _ (by rw [hhe]; exact List.mem_cons_self _ _))
  unfold parseTimestamp
  rw [takeDigits_complete 4 y _ hy]
  simp only []
  rw [expectChar_complete]
  simp only []
  rw [takeDigits_complete 2 mo _ hmo]
  simp only []
  rw [expectChar_complete]
  simp only []
  rw [takeDigits_complete 2 d _ hd]
  simp only []
  rw [takeWs1_complete w _ hw hhead]
  simp only []
  rw [takeDigits_complete 2 hh _ hhh]
  simp only []
  rw [expectChar_complete]
  simp only []
  rw [takeDigits_complete 2 mi _ hmi]
  simp only []
  rw [expectChar_complete]
  simp only []
  rw [takeDigits_complete 2 ss _ hss]
  simp only []
  rw [expectChar_complete]
  simp only []
  rw [takeDigits_complete 3 ms _ hms]

theorem parseLevel_sound (s lvl r : List Char) (h : parseLevel s = some (lvl, r)) :
    s = lvl ++ r ∧ lvl ∈ levelTokens := by
  unfold parseLevel at h
  split at h
  · rename_i r0 hr0
    simp only [Option.some_inj, Prod.mk.injEq] at h
    rw [← h.1, ← h.2]
    exact ⟨expectTok_sound _ _ _ hr0, by simp [levelTokens]⟩
  rename_i hn0
  split at h
  · rename_i r0 hr0
    simp only [Option.some_inj, Prod.mk.injEq] at h
    rw [← h.1, ← h.2]
    exact ⟨expectTok_sound _ _ _ hr0, by simp [levelTokens]⟩
  rename_i hn1
  split at h
  · rename_i r0 hr0
    simp only [Option.some_inj, Prod.mk.injEq] at h
    rw [← h.1, ← h.2]
    exact ⟨expectTok_sound _ _ _ hr0, by simp [levelTokens]⟩
  rename_i hn2
  split at h
  · rename_i r0 hr0
    simp only [Option.some_inj, Prod.mk.injEq] at h
    rw [← h.1, ← h.2]
    exact ⟨expectTok_sound _ _ _ hr0, by simp [levelTokens]⟩
  rename_i hn3
  split at h
  · rename_i r0 hr0
    simp only [Option.some_inj, Prod.mk.injEq] at h
    rw [← h.1, ← h.2]
    exact ⟨expectTok_sound _ _ _ hr0, by simp [levelTokens]⟩
  · simp at h

theorem parseLevel_complete (lvl r : List Char) (hlvl : lvl ∈ levelTokens) :
    parseLevel (lvl ++ r) = some (lvl, r) := by
  simp only [levelTokens, List.mem_cons, List.not_mem_nil, or_false] at hlvl
  rcases hlvl with rfl | rfl | rfl | rfl | rfl
  · unfold parseLevel
    rw [expectTok_complete]
  · unfold parseLevel
    rw [show expectTok "DEBUG".toList ("INFO".toList ++ r) = none from rfl]
    rw [expectTok_complete]
  · unfold parseLevel
    rw [show expectTok "DEBUG".toList ("WARNING".toList ++ r) = none from rfl]
    rw [show expectTok "INFO".toList ("WARNING".toList ++ r) = none from rfl]
    rw [expectTok_complete]
  · unfold parseLevel
    rw [show expectTok "DEBUG".toList ("ERROR".toList ++ r) = none from rfl]
    rw [show expectTok "INFO".toList ("ERROR".toList ++ r) = none from rfl]
    rw [show expectTok "WARNING".toList ("ERROR".toList ++ r) = none from rfl]
    rw [expectTok_complete]
  · unfold parseLevel
    rw [show expectTok "DEBUG".toList ("CRITICAL".toList ++ r) = none from rfl]
    rw [show expectTok "INFO".toList ("CRITICAL".toList ++ r) = none from rfl]
    rw [show expectTok "WARNING".toList ("CRITICAL".toList ++ r) = none from rfl]
    rw [show expectTok "ERROR".toList ("CRITICAL".toList ++ r) = none from rfl]
    rw [expectTok_complete]

theorem dottedShape_nil : DottedShape [] :=
  ⟨[], fun p hp => absurd hp (List.not_mem_nil p), rfl⟩

theorem dottedShape_cons (d : Char) (w tail : List Char) (hd : isWordChar d = true)
    (hw : ∀ c ∈ w, isWordChar c = true) (ht : DottedShape tail) :
    DottedShape ('.' :: d :: (w ++ tail)) := by
  rcases ht with ⟨parts, hp, rfl⟩
  refine ⟨(d :: w) :: parts, ?_, by simp⟩
  intro p hp2
  rcases List.mem_cons.mp hp2 with rfl | hp2
  · refine ⟨by simp, ?_⟩
    intro c hc
    rcases List.mem_cons.mp hc with rfl | hc
    · exact hd
    · exact hw c hc
  · exact hp p hp2

theorem wtd_nil : wordThenDotted [] = ([], []) := rfl

theorem wtd_word (c : Char) (t : List Char) (hw : isWordChar c = true) :
    wordThenDotted (c :: t) = (c :: (wordThenDotted t).1, (wordThenDotted t).2) := by
  rw [wordThenDotted.eq_def]
  simp [hw]

theorem wtd_dot_nil : wordThenDotted ['.'] = ([], ['.']) := rfl

theorem wtd_dot_word (d : Char) (t2 : List Char) (hw : isWordChar d = true) :
    wordThenDotted ('.' :: d :: t2) =
      ('.' :: d :: (wordThenDotted t2).1, (wordThenDotted t2).2) := by
  rw [wordThenDotted.eq_def]
  simp [hw, show isWordChar '.' = false from by decide]

theorem wtd_dot_not_word (d : Char) (t2 : List Char) (hw : isWordChar d = false) :
    wordThenDotted ('.' :: d :: t2) = ([], '.' :: d :: t2) := by
  rw [wordThenDotted.eq_def]
  simp [hw, show isWordChar '.' = false from by decide]

theorem wtd_not_word_not_dot (c : Char) (t : List Char) (hw : isWordChar c = false)
    (hdot : ¬c = '.') : wordThenDotted (c :: t) = ([], c :: t) := by
  rw [wordThenDotted.eq_def]
  simp [hw, hdot]

theorem dottedTail_dot_word (d : Char) (t2 : List Char) (hw : isWordChar d = true) :
    dottedTail ('.' :: d :: t2) =
      ('.' :: d :: (wordThenDotted t2).1, (wordThenDotted t2).2) := by
  rw [dottedTail.eq_def]
  simp [hw]

theorem wordThenDotted_sound_aux (n : Nat) :
    ∀ s : List Char, s.length ≤ n →
      s = (wordThenDotted s).1 ++ (wordThenDotted s).2 ∧
      ∃ wd tl, (∀ c ∈ wd, isWordChar c = true) ∧ DottedShape tl ∧
        (wordThenDotted s).1 = wd ++ tl := by
  induction n with
  | zero =>
    intro s hs
    have : s = [] := List.length_eq_zero.mp (Nat.le_zero.mp hs)
    subst this
    exact ⟨rfl, [], [], fun c hc => absurd hc (List.not_mem_nil c), dottedShape_nil, rfl⟩
  | succ m ih =>
    intro s hs
    cases s with
    | nil =>
      exact ⟨rfl, [], [], fun c hc => absurd hc (List.not_mem_nil c), dottedShape_nil, rfl⟩
    | cons c t =>
      by_cases hw : isWordChar c = true
      · have hrec := ih t (by simpa using Nat.le_of_succ_le_succ hs)
        rcases hrec with ⟨heq, wd, tl, hwd, htl, hsplit⟩
        rw [wtd_word c t hw]
        refine ⟨by simpa using congrArg (c :: ·) heq, c :: wd, tl, ?_, htl, by simp [hsplit]⟩
        intro x hx
        rcases List.mem_cons.mp hx with rfl | hx
        · exact hw
        · exact hwd x hx
      · have hw' : isWordChar c = false := by simpa using hw
        by_cases hdot : c = '.'
        · subst hdot
          cases t with
          | nil =>
            rw [wtd_dot_nil]
            exact ⟨rfl, [], [], fun c hc => absurd hc (List.not_mem_nil c),
              dottedShape_nil, rfl⟩
          | cons d t2 =>
            by_cases hwd2 : isWordChar d = true
            · have hrec := ih t2 (by
                simp only [List.length_cons] at hs ⊢
                omega)
              rcases hrec with ⟨heq, wd, tl, hwd, htl, hsplit⟩
              rw [wtd_dot_word d t2 hwd2]
              constructor
              · rw [show ('.' :: d :: (wordThenDotted t2).1) ++ (wordThenDotted t2).2 =
                    '.' :: d :: ((wordThenDotted t2).1 ++ (wordThenDotted t2).2) from rfl,
                  ← heq]
              · refine ⟨[], '.' :: d :: (wordThenDotted t2).1,
                  fun c hc => absurd hc (List.not_mem_nil c), ?_, rfl⟩
                rw [hsplit]
                exact dottedShape_cons d wd tl hwd2 hwd htl
            · have hwd2' : isWordChar d = false := by simpa using hwd2
              rw [wtd_dot_not_word d t2 hwd2']
              exact ⟨rfl, [], [], fun c hc => absurd hc (List.not_mem_nil c),
                dottedShape_nil, rfl⟩
        · rw [wtd_not_word_not_dot c t hw' hdot]
          exact ⟨rfl, [], [], fun c hc => absurd hc (List.not_mem_nil c),
            dottedShape_nil, rfl⟩

theorem wordThenDotted_sound (s : List Char) :
    s = (wordThenDotted s).1 ++ (wordThenDotted s).2 ∧
    ∃ wd tl, (∀ c ∈ wd, isWordChar c = true) ∧ DottedShape tl ∧
      (wordThenDotted s).1 = wd ++ tl :=
  wordThenDotted_sound_aux s.length s le_rfl

theorem dottedTail_sound (s d r : List Char) (h : dottedTail s = (d, r)) :
    s = d ++ r ∧ DottedShape d := by
  unfold dottedTail at h
  split at h
  · rename_i c t
    by_cases hc : isWordChar c = true
    · rw [if_pos hc] at h
      rcases wordThenDotted_sound t with ⟨heq, wd, tl, hwd, htl, hsplit⟩
      simp only [Prod.mk.injEq] at h
      rw [← h.1, ← h.2]
      constructor
      · rw [show ('.' :: c :: (wordThenDotted t).1) ++ (wordThenDotted t).2 =
            '.' :: c :: ((wordThenDotted t).1 ++ (wordThenDotted t).2) from rfl, ← heq]
      · rw [hsplit]
        exact dottedShape_cons c wd tl hc hwd htl
    · rw [if_neg hc] at h
      simp only [Prod.mk.injEq] at h
      rw [← h.1, ← h.2]
      exact ⟨rfl, dottedShape_nil⟩
  · simp only [Prod.mk.injEq] at h
    rw [← h.1, ← h.2]
    exact ⟨rfl, dottedShape_nil⟩

theorem wordThenDotted_complete :
    ∀ (parts : List (List Char)), (∀ p ∈ parts, IsWordRun1 p) →
      ∀ (wd : List Char), (∀ c ∈ wd, isWordChar c = true) →
        ∀ r : List Char, r.head? = some ':' →
          wordThenDotted (wd ++ ((parts.map (fun p => '.' :: p)).join ++ r)) =
            (wd ++ (parts.map (fun p => '.' :: p)).join, r) := by
  intro parts
  induction parts with
  | nil =>
    intro _ wd
    induction wd with
    | nil =>
      intro _ r hr
      cases r with
      | nil => simp at hr
      | cons x rest =>
        simp only [List.head?_cons, Option.some_inj] at hr
        subst hr
        simp only [List.map_nil, List.join_nil, List.nil_append, List.append_nil]
        exact wtd_not_word_not_dot ':' rest (by decide) (by decide)
    | cons c wdt ihwd =>
      intro hwd r hr
      have hc : isWordChar c = true := hwd c (List.mem_cons_self _ _)
      have ihr := ihwd (fun x hx => hwd x (List.mem_cons_of_mem _ hx)) r hr
      rw [show (c :: wdt) ++ ((List.map (fun p => '.' :: p) []).join ++ r) =
          c :: (wdt ++ ((List.map (fun p => '.' :: p) []).join ++ r)) from rfl,
        wtd_word c _ hc, ihr]
      rfl
  | cons p parts2 ihp =>
    intro hparts wd
    induction wd with
    | nil =>
      intro _ r hr
      rcases hparts p (List.mem_cons_self _ _) with ⟨hpne, hpw⟩
      cases hp : p with
      | nil => exact absurd hp hpne
      | cons pc pt =>
        have hpc : isWordChar pc = true := hpw pc (by rw [hp]; exact List.mem_cons_self _ _)
        have hptw : ∀ c ∈ pt, isWordChar c = true := fun c hc =>
          hpw c (by rw [hp]; exact List.mem_cons_of_mem _ hc)
        have ihr := ihp (fun q hq => hparts q (List.mem_cons_of_mem _ hq)) pt hptw r hr
        rw [show ([] : List Char) ++
              ((List.map (fun p => '.' :: p) ((pc :: pt) :: parts2)).join ++ r) =
            '.' :: pc :: (pt ++ ((List.map (fun p => '.' :: p) parts2).join ++ r)) from by
          simp, wtd_dot_word pc _ hpc, ihr]
        simp
    | cons c wdt ihwd =>
      intro hwd r hr
      have hc : isWordChar c = true := hwd c (List.mem_cons_self _ _)
      have ihr := ihwd (fun x hx => hwd x (List.mem_cons_of_mem _ hx)) r hr
      rw [show (c :: wdt) ++ ((List.map (fun q => '.' :: q) (p :: parts2)).join ++ r) =
          c :: (wdt ++ ((List.map (fun q => '.' :: q) (p :: parts2)).join ++ r)) from rfl,
        wtd_word c _ hc, ihr]
      rfl

theorem dottedTail_complete (parts : List (List Char))
    (hparts : ∀ p ∈ parts, IsWordRun1 p) (r : List Char) (hr : r.head? = some ':') :
    dottedTail ((parts.map (fun p => '.' :: p)).join ++ r) =
      ((parts.map (fun p => '.' :: p)).join, r) := by
  cases parts with
  | nil =>
    cases r with
    | nil => simp at hr
    | cons x rest =>
      simp only [List.head?_cons, Option.some_inj] at hr
      subst hr
      simp only [List.map_nil, List.join_nil, List.nil_append]
      rfl
  | cons p parts2 =>
    rcases hparts p (List.mem_cons_self _ _) with ⟨hpne, hpw⟩
    cases hp : p with
    | nil => exact absurd hp hpne
    | cons pc pt =>
      have hpc : isWordChar pc = true := hpw pc (by rw [hp]; exact List.mem_cons_self _ _)
      have hptw : ∀ c ∈ pt, isWordChar c = true := fun c hc =>
        hpw c (by rw [hp]; exact List.mem_cons_of_mem _ hc)
      have hwtd := wordThenDotted_complete parts2
        (fun q hq => hparts q (List.mem_cons_of_mem _ hq)) pt hptw r hr
      rw [show ((List.map (fun q => '.' :: q) ((pc :: pt) :: parts2)).join ++ r) =
          '.' :: pc :: (pt ++ ((List.map (fun q => '.' :: q) parts2).join ++ r)) from by
        simp]
      rw [dottedTail_dot_word pc _ hpc, hwtd]
      simp

theorem parseComponent_sound (s comp r : List Char)
    (h : parseComponent s = some (comp, r)) :
    s = comp ++ r ∧ ComponentShape comp := by
  unfold parseComponent at h
  split at h
  · simp at h
  rename_i r1 htok
  by_cases hemp : (r1.takeWhile isWordChar).isEmpty
  · rw [if_pos hemp] at h
    simp at h
  · rw [if_neg hemp] at h
    rcases hdt : dottedTail (r1.dropWhile isWordChar) with ⟨d1, r2⟩
    rw [hdt] at h
    simp only [Option.some_inj, Prod.mk.injEq] at h
    have hs1 := expectTok_sound _ _ _ htok
    have hspan := span_spec isWordChar r1
    rcases dottedTail_sound _ _ _ hdt with ⟨hdw, hshape⟩
    constructor
    · rw [← h.1, ← h.2, hs1]
      conv_lhs => rw [hspan.1, hdw]
      simp [List.append_assoc]
    · rw [← h.1]
      exact ⟨r1.takeWhile isWordChar, d1,
        ⟨by simpa [List.isEmpty_iff] using hemp, hspan.2.1⟩, hshape, rfl⟩

theorem parseComponent_complete (wd dt rest : List Char) (hwd : IsWordRun1 wd)
    (hdt : DottedShape dt) (hrest : rest.head? = some ':') :
    parseComponent ("django.".toList ++ (wd ++ (dt ++ rest))) =
      some ("django.".toList ++ wd ++ dt, rest) := by
  rcases hdt with ⟨parts, hp, rfl⟩
  have hnexthead : ∀ c,
      ((parts.map (fun p => '.' :: p)).join ++ rest).head? = some c →
        isWordChar c = false := by
    cases parts with
    | nil =>
      intro c hc
      simp only [List.map_nil, List.join_nil, List.nil_append] at hc
      rw [hrest] at hc
      cases hc
      decide
    | cons p parts2 =>
      intro c hc
      simp only [List.map_cons, List.join_cons, List.cons_append, List.append_assoc,
        List.head?_cons, Option.some_inj] at hc
      subst hc
      decide
  have hsplit := takeWhile_append_eq isWordChar wd
    ((parts.map (fun p => '.' :: p)).join ++ rest) hwd.2 hnexthead
  unfold parseComponent
  rw [expectTok_complete]
  simp only []
  rw [show wd ++ ((parts.map (fun p => '.' :: p)).join ++ rest) =
    wd ++ ((parts.map (fun p => '.' :: p)).join ++ rest) from rfl]
  rw [hsplit.1, hsplit.2]
  rw [if_neg (by simpa [List.isEmpty_iff] using hwd.1)]
  rw [dottedTail_complete parts hp rest hrest]

theorem tailShapeB_of_all_space (ws : List Char) (hne : ws ≠ [])
    (hallsp : ∀ x ∈ ws, isSpaceChar x = true) (c0 : Char) (rest : List Char)
    (hdw : ws.tail.reverse.dropWhile (fun c => c = '\n') = c0 :: rest) :
    TailShapeB ws [c0] := by
  cases ws with
  | nil => exact absurd rfl hne
  | cons w0 wt =>
    have hdw2 : wt.reverse.dropWhile (fun c => c = '\n') = c0 :: rest := hdw
    have hspanR := span_spec (fun x => x = '\n') wt.reverse
    have hwt : wt = rest.reverse ++ c0 ::
        (wt.reverse.takeWhile (fun x => x = '\n')).reverse := by
      conv_lhs => rw [← List.reverse_reverse wt]
      conv_lhs => rw [hspanR.1, hdw2]
      simp
    refine ⟨w0 :: rest.reverse, c0, (wt.reverse.takeWhile (fun x => x = '\n')).reverse,
      ⟨by simp, ?_⟩, ?_, ?_, ?_, rfl, ?_⟩
    · intro x hx
      rcases List.mem_cons.mp hx with rfl | hx
      · exact hallsp x (List.mem_cons_self _ _)
      · exact hallsp x (List.mem_cons_of_mem _
          (by rw [hwt]; exact List.mem_append_left _ hx))
    · exact hallsp c0 (List.mem_cons_of_mem _
        (by rw [hwt]; exact List.mem_append_right _ (List.mem_cons_self _ _)))
    · have := hspanR.2.2 c0 (by rw [hdw2]; rfl)
      simpa using this
    · intro x hx
      have := hspanR.2.1 x (List.mem_reverse.mp hx)
      simpa using this
    · rw [show (w0 :: rest.reverse) ++ c0 ::
          (wt.reverse.takeWhile (fun x => x = '\n')).reverse =
          w0 :: (rest.reverse ++ c0 ::
            (wt.reverse.takeWhile (fun x => x = '\n')).reverse) from rfl, ← hwt]

theorem parseMessageTail_sound (s msg : List Char) (h : parseMessageTail s = some msg) :
    TailShapeA s msg ∨ TailShapeB s msg := by
  have hspan := span_spec isSpaceChar s
  simp only [parseMessageTail] at h
  by_cases hemp : (s.takeWhile isSpaceChar).isEmpty
  · rw [if_pos hemp] at h
    simp at h
  · rw [if_neg hemp] at h
    cases hrem : s.dropWhile isSpaceChar with
    | cons y rem2 =>
      rw [hrem] at h
      simp only [Option.some_inj] at h
      left
      have hy : isSpaceChar y = false := hspan.2.2 y (by rw [hrem]; rfl)
      have hyn : ¬y = '\n' := ne_newline_of_not_space y hy
      have hspan2 := span_spec (fun c => !(c = '\n')) (y :: rem2)
      refine ⟨s.takeWhile isSpaceChar,
        (y :: rem2).dropWhile (fun c => !(c = '\n')), ?_, ?_, ?_, ?_, ?_, ?_⟩
      · exact ⟨by simpa [List.isEmpty_iff] using hemp, hspan.2.1⟩
      · rw [← h]
        simp [List.takeWhile_cons, hyn]
      · intro c hc
        rw [← h] at hc
        simp [List.takeWhile_cons, hyn] at hc
        subst hc
        exact hy
      · intro hcon
        have := hspan2.2.1 '\n' (h ▸ hcon)
        simp at this
      · rcases hdw : (y :: rem2).dropWhile (fun c => !(c = '\n')) with _ | ⟨z, zs⟩
        · exact Or.inl rfl
        · refine Or.inr ?_
          have hz := hspan2.2.2 z (by rw [hdw]; rfl)
          have hz2 : z = '\n' := by simpa using hz
          rw [hz2]
          rfl
      · conv_lhs => rw [hspan.1, hrem]
        rw [← h, List.append_assoc]
        congr 1
        exact hspan2.1
    | nil =>
      rw [hrem] at h
      right
      simp only [Option.map_eq_some'] at h
      rcases h with ⟨c, hlast, hmsg⟩
      have hsnil : s = s.takeWhile isSpaceChar := by
        conv_lhs => rw [hspan.1, hrem]
        simp
      unfold lastNonNl at hlast
      rcases hdw : (s.takeWhile isSpaceChar).tail.reverse.dropWhile (fun c => c = '\n')
        with _ | ⟨c0, rest⟩
      · rw [hdw] at hlast
        simp at hlast
      · rw [hdw] at hlast
        simp only [Option.some_inj] at hlast
        rw [← hmsg, ← hlast, hsnil]
        exact tailShapeB_of_all_space (s.takeWhile isSpaceChar)
          (by simpa [List.isEmpty_iff] using hemp) hspan.2.1 c0 rest hdw


theorem parseMessageTail_completeA (tail msg : List Char) (h : TailShapeA tail msg) :
    parseMessageTail tail = some msg := by
  rcases h with ⟨sep, suffix, hsep, hne, hhead, hnl, hsuf, rfl⟩
  have hr : ∀ c, (msg ++ suffix).head? = some c → isSpaceChar c = false := by
    cases msg with
    | nil => exact absurd rfl hne
    | cons m0 mt =>
      intro c hc
      simp only [List.cons_append, List.head?_cons, Option.some_inj] at hc
      subst hc
      exact hhead _ rfl
  have hsplit := takeWhile_append_eq isSpaceChar sep (msg ++ suffix) hsep.2 hr
  have hmsgsplit := takeWhile_append_eq (fun c => !(c = '\n')) msg suffix
    (fun c hc => by
      have : ¬c = '\n' := fun hcon => hnl (hcon ▸ hc)
      simpa using this)
    (fun c hc => by
      rcases hsuf with rfl | hsuf
      · cases hc
      · rw [hsuf] at hc
        cases hc
        simp)
  unfold parseMessageTail
  rw [List.append_assoc, hsplit.1, hsplit.2]
  rw [if_neg (by simpa [List.isEmpty_iff] using hsep.1)]
  cases msg with
  | nil => exact absurd rfl hne
  | cons m0 mt =>
    rw [List.cons_append]
    simp only []
    rw [List.cons_append] at hmsgsplit
    rw [hmsgsplit.1]

theorem parseMessageTail_completeB (tail msg : List Char) (h : TailShapeB tail msg) :
    parseMessageTail tail = some msg := by
  rcases h with ⟨sep, c, nls, hsep, hc, hcn, hnls, rfl, rfl⟩
  have hall : ∀ x ∈ sep ++ c :: nls, isSpaceChar x = true := by
    intro x hx
    rcases List.mem_append.mp hx with hx | hx
    · exact hsep.2 x hx
    · rcases List.mem_cons.mp hx with rfl | hx
      · exact hc
      · rw [hnls x hx]
        rfl
  have htake := takeWhile_append_eq isSpaceChar (sep ++ c :: nls) [] hall
    (fun x hx => by cases hx)
  rw [List.append_nil] at htake
  unfold parseMessageTail
  rw [htake.1, htake.2]
  rw [if_neg (by
    intro hcon
    rw [List.isEmpty_iff] at hcon
    exact hsep.1 (List.append_eq_nil.mp hcon).1)]
  simp only []
  rcases hseps : sep with _ | ⟨s0, st⟩
  · exact absurd hseps hsep.1
  · have hrev : (st ++ c :: nls).reverse = nls.reverse ++ (c :: st.reverse) := by
      simp
    have hdrop := takeWhile_append_eq (fun x => x = '\n') nls.reverse (c :: st.reverse)
      (fun x hx => by simpa using hnls x (List.mem_reverse.mp hx))
      (fun x hx => by
        cases hx
        simpa using hcn)
    rw [show ((s0 :: st) ++ c :: nls).tail = st ++ c :: nls from rfl]
    unfold lastNonNl
    rw [hrev, hdrop.2]
    rfl

theorem head_not_space_of_levelTok (lvl : List Char) (hlvl : lvl ∈ levelTokens) :
    ∀ (r : List Char) (c : Char), (lvl ++ r).head? = some c → isSpaceChar c = false := by
  simp only [levelTokens, List.mem_cons, List.not_mem_nil, or_false] at hlvl
  rcases hlvl with rfl | rfl | rfl | rfl | rfl <;>
    (intro r c hc
     cases hc
     decide)

theorem head_not_space_of_django (X : List Char) (c : Char)
    (hc : ("django.".toList ++ X).head? = some c) : isSpaceChar c = false := by
  rw [show "django.".toList ++ X = 'd' :: ("jango.".toList ++ X) from rfl] at hc
  cases hc
  decide

theorem parse_log_line_sound (line : List Char) (d : LogData)
    (h : parse_log_line line = some d) :
    Decomp line d.timestamp d.level d.component d.message ∧
    d.handler =
      (if d.component = requestComponent then searchRequest d.message else none) := by
  unfold parse_log_line at h
  split at h
  · simp at h
  rename_i p1 ts r1 hts
  split at h
  · simp at h
  rename_i p2 ws1 r2 hws1
  split at h
  · simp at h
  rename_i p3 lvl r3 hlvl
  split at h
  · simp at h
  rename_i p4 ws2 r4 hws2
  split at h
  · simp at h
  rename_i p5 comp r5 hcomp
  split at h
  · simp at h
  rename_i r6 hcolon
  split at h
  · simp at h
  rename_i msg hmsg
  simp only [Option.some_inj] at h
  subst h
  rcases parseTimestamp_sound line ts r1 hts with ⟨e1, hshape1⟩
  rcases takeWs1_sound r1 ws1 r2 hws1 with ⟨e2, hws1s, _⟩
  rcases parseLevel_sound r2 lvl r3 hlvl with ⟨e3, hlvls⟩
  rcases takeWs1_sound r3 ws2 r4 hws2 with ⟨e4, hws2s, _⟩
  rcases parseComponent_sound r4 comp r5 hcomp with ⟨e5, hcomps⟩
  have e6 := expectChar_sound ':' r5 r6 hcolon
  have htail := parseMessageTail_sound r6 msg hmsg
  constructor
  · refine ⟨ws1, ws2, r6, hshape1, hws1s, hlvls, hws2s, hcomps, htail, ?_⟩
    rw [e1, e2, e3, e4, e5, e6]
    simp [List.append_assoc]
  · rfl

theorem parse_log_line_complete (line ts lvl comp msg : List Char)
    (h : Decomp line ts lvl comp msg) :
    parse_log_line line = some ⟨ts, lvl, comp, msg,
      if comp = requestComponent then searchRequest msg else none⟩ := by
  rcases h with ⟨ws1, ws2, tail, hts, hws1, hlvl, hws2, hcomp, htail, hline⟩
  subst hline
  rcases hts with ⟨y, mo, d, w, hh, mi, ss, ms, hy, hmo, hd, hw, hhh, hmi, hss, hms, rfl⟩
  rcases hcomp with ⟨wd, dt, hwd, hdt, rfl⟩
  unfold parse_log_line
  simp only [List.append_assoc, List.cons_append]
  rw [parseTimestamp_complete y mo d w hh mi ss ms _ hy hmo hd hw hhh hmi hss hms]
  simp only []
  rw [takeWs1_complete ws1 _ hws1 (head_not_space_of_levelTok lvl hlvl _)]
  simp only []
  rw [parseLevel_complete lvl _ hlvl]
  simp only []
  rw [takeWs1_complete ws2 _ hws2 (fun c hc => head_not_space_of_django _ c hc)]
  simp only []
  rw [parseComponent_complete wd dt (':' :: tail) hwd hdt rfl]
  simp only []
  rw [expectChar_complete]
  simp only []
  rcases htail with hA | hB
  · rw [parseMessageTail_completeA tail msg hA]
    simp [List.append_assoc]
  · rw [parseMessageTail_completeB tail msg hB]
    simp [List.append_assoc]


theorem takePath_sound (s h : List Char) (hp : takePath s = some h) :
    ∃ run, h = '/' :: run ∧ run ≠ [] ∧ ∀ c ∈ run, isSpaceChar c = false := by
  unfold takePath at hp
  split at hp
  · rename_i t
    by_cases hemp : (t.takeWhile (fun c => !isSpaceChar c)).isEmpty
    · rw [if_pos hemp] at hp
      simp at hp
    · rw [if_neg hemp] at hp
      simp only [Option.some_inj] at hp
      have hspan := span_spec (fun c => !isSpaceChar c) t
      refine ⟨t.takeWhile (fun c => !isSpaceChar c), hp.symm,
        by simpa [List.isEmpty_iff] using hemp, ?_⟩
      intro c hc
      have := hspan.2.1 c hc
      simpa using this
  · simp at hp

theorem afterWsPath_sound (s h : List Char) (hp : afterWsPath s = some h) :
    ∃ run, h = '/' :: run ∧ run ≠ [] ∧ ∀ c ∈ run, isSpaceChar c = false := by
  simp only [afterWsPath, Option.bind_eq_bind, Option.bind_eq_some] at hp
  rcases hp with ⟨⟨w, r⟩, _, hp⟩
  exact takePath_sound r h hp

theorem verbBranch_sound (v s h : List Char) (hp : verbBranch v s = some h) :
    ∃ run, h = '/' :: run ∧ run ≠ [] ∧ ∀ c ∈ run, isSpaceChar c = false := by
  simp only [verbBranch, Option.bind_eq_some] at hp
  rcases hp with ⟨r, _, hp⟩
  exact afterWsPath_sound r h hp

theorem tryVerb_sound (s h : List Char) (hp : tryVerb s = some h) :
    ∃ run, h = '/' :: run ∧ run ≠ [] ∧ ∀ c ∈ run, isSpaceChar c = false := by
  unfold tryVerb at hp
  split at hp
  · rename_i h0 hb
    cases hp
    exact verbBranch_sound _ _ _ hb
  split at hp
  · rename_i h0 hb
    cases hp
    exact verbBranch_sound _ _ _ hb
  split at hp
  · rename_i h0 hb
    cases hp
    exact verbBranch_sound _ _ _ hb
  split at hp
  · rename_i h0 hb
    cases hp
    exact verbBranch_sound _ _ _ hb
  split at hp
  · rename_i h0 hb
    cases hp
    exact verbBranch_sound _ _ _ hb
  · simp at hp

theorem tryError_sound (s h : List Char) (hp : tryError s = some h) :
    ∃ run, h = '/' :: run ∧ run ≠ [] ∧ ∀ c ∈ run, isSpaceChar c = false := by
  simp only [tryError, Option.bind_eq_some] at hp
  rcases hp with ⟨r, _, hp⟩
  exact afterWsPath_sound r h hp

theorem searchRequest_sound (m h : List Char) (hs : searchRequest m = some h) :
    ∃ run, h = '/' :: run ∧ run ≠ [] ∧ ∀ c ∈ run, isSpaceChar c = false := by
  induction m with
  | nil => simp [searchRequest] at hs
  | cons c t ih =>
    unfold searchRequest at hs
    split at hs
    · rename_i h0 hb
      cases hs
      exact tryVerb_sound _ _ hb
    split at hs
    · rename_i h0 hb
      cases hs
      exact tryError_sound _ _ hb
    · exact ih hs

/-- A well-formed handler key: starts with a slash and contains no
whitespace character. -/
def KeyOK (s : String) : Bool :=
  s.data.head? = some '/' && s.data.all (fun c => !isSpaceChar c)

theorem keyOK_of_searchRequest (m h : List Char) (hs : searchRequest m = some h) :
    KeyOK (String.mk h) = true := by
  rcases searchRequest_sound m h hs with ⟨run, rfl, hne, hrun⟩
  simp only [KeyOK, String.data, Bool.and_eq_true, List.all_eq_true]
  refine ⟨by simp, ?_⟩
  intro c hc
  rcases List.mem_cons.mp hc with rfl | hc
  · decide
  · simp [hrun c hc]

theorem keyOK_processLine (a : Agg) (line : List Char)
    (ha : ∀ k ∈ keysA a, KeyOK k = true) :
    ∀ k ∈ keysA (processLine a line), KeyOK k = true := by
  intro k hk
  unfold processLine at hk
  cases hp : parse_log_line line with
  | none =>
    rw [hp] at hk
    exact ha k hk
  | some d =>
    rw [hp] at hk
    by_cases hc : d.component = requestComponent
    · cases hh : d.handler with
      | none =>
        simp only [hc, hh, ite_true] at hk
        exact ha k hk
      | some hdl =>
        simp only [hc, hh, ite_true] at hk
        rcases (mem_keysA_addCount a _ _ 1 k).mp hk with hk | rfl
        · exact ha k hk
        · have h2 := (parse_log_line_sound line d hp).2
          rw [hh, if_pos hc] at h2
          exact keyOK_of_searchRequest _ _ h2.symm
    · simp only [hc, ite_false] at hk
      exact ha k hk

theorem keyOK_process_single_file (lines : List (List Char)) :
    ∀ k ∈ keysA (process_single_file lines), KeyOK k = true := by
  have hgen : ∀ (acc : Agg), (∀ k ∈ keysA acc, KeyOK k = true) →
      ∀ k ∈ keysA (lines.foldl processLine acc), KeyOK k = true := by
    induction lines with
    | nil => intro acc ha; simpa using ha
    | cons x xs ih =>
      intro acc ha
      simp only [List.foldl_cons]
      exact ih _ (keyOK_processLine acc x ha)
  exact hgen [] (by intro k hk; cases hk)

theorem liveKeys_subset_keysA (a : Agg) (k : String) (hk : k ∈ liveKeys a) :
    k ∈ keysA a := by
  unfold liveKeys at hk
  rcases List.mem_map.mp hk with ⟨e, he, rfl⟩
  exact List.mem_map_of_mem _ (List.mem_of_mem_filter he)


theorem process_files_reports_first_error_witness :
    firstError [Except.error ("a.log", "missing"), Except.error ("b.log", "missing")] =
      some ("a.log", "missing") ∧
    process_files_seq
        [Except.error ("a.log", "missing"), Except.error ("b.log", "missing")] =
      Except.error ("a.log", "missing") :=
  ⟨rfl, process_files_reports_first_error _ _ rfl⟩

/-- C1: `parse_log_line` is total (it returns an `Option`, never
raising) and matches `BASE_PATTERN` anchored at the line start: for
every line of the accepted shape — timestamp `YYYY-MM-DD HH:MM:SS,mmm`
(whitespace runs per the pattern's `\\s+`), one of the five severity
tokens (case-sensitive), a dotted component rooted at `django.`, a
colon and a message — it returns exactly the captured substrings; for
every other string it returns `none`.  `Decomp` is the declarative
shape, written from the pattern. -/
theorem parse_log_line_spec :
    (∀ line ts lvl comp msg : List Char, Decomp line ts lvl comp msg →
      parse_log_line line = some ⟨ts, lvl, comp, msg,
        if comp = requestComponent then searchRequest msg else none⟩) ∧
    (∀ (line : List Char) (d : LogData), parse_log_line line = some d →
      Decomp line d.timestamp d.level d.component d.message) ∧
    (∀ line : List Char, (∀ ts lvl comp msg, ¬ Decomp line ts lvl comp msg) →
      parse_log_line line = none) := by
  refine ⟨parse_log_line_complete, fun line d h => (parse_log_line_sound line d h).1, ?_⟩
  intro line hno
  cases hp : parse_log_line line with
  | none => rfl
  | some d =>
    exact absurd (parse_log_line_sound line d hp).1
      (hno d.timestamp d.level d.component d.message)

theorem parse_log_line_spec_witness :
    Decomp "2024-03-28 10:15:30,123 INFO django.request: GET /x".toList
        "2024-03-28 10:15:30,123".toList "INFO".toList "django.request".toList
        "GET /x".toList ∧
    parse_log_line "2024-03-28 10:15:30,123 INFO django.request: GET /x".toList =
      some ⟨"2024-03-28 10:15:30,123".toList, "INFO".toList, "django.request".toList,
        "GET /x".toList,
        if "django.request".toList = requestComponent
        then searchRequest "GET /x".toList else none⟩ := by
  have hdec : Decomp "2024-03-28 10:15:30,123 INFO django.request: GET /x".toList
      "2024-03-28 10:15:30,123".toList "INFO".toList "django.request".toList
      "GET /x".toList := by
    refine ⟨[' '], [' '], " GET /x".toList, ?_, by decide, by decide, by decide, ?_, ?_, by decide⟩
    · exact ⟨"2024".toList, "03".toList, "28".toList, [' '], "10".toList,
        "15".toList, "30".toList, "123".toList, by decide, by decide, by decide,
        by decide, by decide, by decide, by decide, by decide, by decide⟩
    · refine ⟨"request".toList, [], by decide, ⟨[], ?_, by decide⟩, by decide⟩
      intro p hp
      cases hp
    · refine Or.inl ⟨[' '], [], by decide, by decide, ?_, by decide, Or.inl rfl, by decide⟩
      intro c hc
      cases hc
      decide
  exact ⟨hdec, parse_log_line_spec.1 _ _ _ _ _ hdec⟩

/-- C7: handler extraction applies only to `django.request` records:
a parsed record of any other component never carries a handler, and
the per-line accumulation of `_process_single_file` leaves the
aggregate unchanged on such a record, regardless of message content. -/
theorem handler_only_for_request :
    (∀ (line : List Char) (d : LogData), parse_log_line line = some d →
      d.component ≠ requestComponent → d.handler = none) ∧
    (∀ (a : Agg) (line : List Char) (d : LogData), parse_log_line line = some d →
      d.component ≠ requestComponent → processLine a line = a) := by
  constructor
  · intro line d h hne
    have h2 := (parse_log_line_sound line d h).2
    rw [h2, if_neg hne]
  · intro a line d h hne
    unfold processLine
    rw [h]
    simp only []
    rw [if_neg hne]

theorem handler_only_for_request_witness :
    parse_log_line
        "2024-03-28 12:44:46,000 DEBUG django.db.backends: (0.41) SELECT GET /users".toList =
      some ⟨"2024-03-28 12:44:46,000".toList, "DEBUG".toList,
        "django.db.backends".toList, "(0.41) SELECT GET /users".toList, none⟩ ∧
    ¬("django.db.backends".toList = requestComponent) ∧
    (⟨"2024-03-28 12:44:46,000".toList, "DEBUG".toList, "django.db.backends".toList,
      "(0.41) SELECT GET /users".toList, none⟩ : LogData).handler = none ∧
    processLine [("/a", [("info_count", 1)])]
        "2024-03-28 12:44:46,000 DEBUG django.db.backends: (0.41) SELECT GET /users".toList =
      [("/a", [("info_count", 1)])] :=
  ⟨by decide, by decide,
   handler_only_for_request.1
     "2024-03-28 12:44:46,000 DEBUG django.db.backends: (0.41) SELECT GET /users".toList
     ⟨"2024-03-28 12:44:46,000".toList, "DEBUG".toList, "django.db.backends".toList,
       "(0.41) SELECT GET /users".toList, none⟩ (by decide) (by decide),
   handler_only_for_request.2 [("/a", [("info_count", 1)])]
     "2024-03-28 12:44:46,000 DEBUG django.db.backends: (0.41) SELECT GET /users".toList
     ⟨"2024-03-28 12:44:46,000".toList, "DEBUG".toList, "django.db.backends".toList,
       "(0.41) SELECT GET /users".toList, none⟩ (by decide) (by decide)⟩

/-- C9: every handler key that can enter an aggregate is well formed:
any key produced by `REQUEST_PATTERN` extraction starts with a slash
and contains no whitespace; hence every key of a per-source aggregate
is well formed, and merging preserves well-formed keys into the output
rows. -/
theorem handler_keys_wellformed :
    (∀ m h : List Char, searchRequest m = some h → KeyOK (String.mk h) = true) ∧
    (∀ (lines : List (List Char)) (k : String),
      k ∈ keysA (process_single_file lines) → KeyOK k = true) ∧
    (∀ ps : List Agg, (∀ p ∈ ps, ∀ k ∈ keysA p, KeyOK k = true) →
      ∀ row ∈ merge_results ps, KeyOK row.handler_name = true) := by
  refine ⟨keyOK_of_searchRequest, keyOK_process_single_file, ?_⟩
  intro ps hps row hrow
  unfold merge_results at hrow
  rcases List.mem_map.mp hrow with ⟨e, he, rfl⟩
  have heM : e ∈ mergeAll ps := (List.perm_insertionSort _ _).mem_iff.mp he
  have hkey : e.1 ∈ keysA (mergeAll ps) := List.mem_map_of_mem _ heM
  rcases (mem_keysA_mergeAll ps e.1).mp hkey with ⟨p, hp, hkp⟩
  exact hps p hp e.1 (liveKeys_subset_keysA p e.1 hkp)

theorem handler_keys_wellformed_witness :
    (searchRequest "GET /api/users/".toList = some "/api/users/".toList ∧
      KeyOK (String.mk "/api/users/".toList) = true) ∧
    ((∀ p ∈ [[(("/a" : String), [(("info_count" : String), (1 : Nat))])]],
        ∀ k ∈ keysA p, KeyOK k = true) ∧
      ∀ row ∈ merge_results [[(("/a" : String), [(("info_count" : String), (1 : Nat))])]],
        KeyOK row.handler_name = true) :=
  ⟨⟨by decide, handler_keys_wellformed.1 "GET /api/users/".toList
      "/api/users/".toList (by decide)⟩,
   ⟨by decide, handler_keys_wellformed.2.2
      [[(("/a" : String), [(("info_count" : String), (1 : Nat))])]] (by decide)⟩⟩

end LogsReport
